import Mathlib

/-!
KIM Arduino library: command framing and response state machine

A shallow embedding of `src/KIM_Arduino_Library.cpp` / `.h` (class `KIM`) and the
properties of its command encoders and of its exchange loop.

Conventions of the embedding

* A `char` / `uint8_t` is a `Nat` (its byte value); the character constants of the
  source appear as their ASCII codes: `'+'` = 43, `'='` = 61, `'?'` = 63, `'A'` = 65,
  `'E'` = 69, `'K'` = 75, `'O'` = 79, `'R'` = 82, `'T'` = 84, `'X'` = 88,
  `'\r'` = 13, `'\n'` = 10, `'\0'` = 0.
* A `uint8_t` length parameter is a `Nat` reduced modulo 256 on entry.
* The member arrays `response[20]`, `command[70]`, `AT_REQUEST[5]`, `AT[3]` are lists;
  every assignment `buf[idx] = v` of the source is a *store* `(idx, v)` with an
  integer index.  The stores of each function are listed in program order and then
  applied to the buffer, so the indices a function writes can be inspected.  A store
  whose index is outside the list does not change the list, with one exception: the
  store `response[20] = '\0'` that follows a read of 20 bytes lands in `command[0]`,
  because `command` is the member declared right after `response`.
* The serial port (`SerialUART`, an Arduino class that is not part of the library) is
  a scripted device: it holds the byte runs that the successive line reads will
  receive, and it records what is printed and how many reads are issued.
-/

namespace KIMLib

/-- The status type `retStatusKIM_t` of the header. -/
inductive retStatusKIM_t where
  | KIM_OK
  | KIM_ERROR
  | KIM_TIMEOUT
  | UNKNOWN
  deriving DecidableEq, Repr

open retStatusKIM_t

/-- The serial device behind `kimSerial`.  `rx` lists, for each future call of
`readBytesUntil`, the bytes that arrive during that call (up to its terminator or
time-out); `tx` lists the strings handed to `print`, oldest first; `reads` counts
the calls of `readBytesUntil`; `begun` tells whether `begin` was called last. -/
structure SerialUART where
  rx : List (List Nat)
  tx : List (List Nat)
  reads : Nat
  begun : Bool
  deriving DecidableEq, Repr

/-- The bytes of a C string: the buffer contents before the first NUL. -/
def cstr (buf : List Nat) : List Nat :=
  buf.takeWhile (fun b => b != 0)

/-- The call `flush()`: waits for the outgoing bytes, nothing observable changes. -/
def SerialUART.flush (u : SerialUART) : SerialUART := u

/-- The loop `while (available() > 0) read();`: unread input is thrown away.  The
script `rx` lists what later line reads receive, so it is left as it is. -/
def SerialUART.drainRx (u : SerialUART) : SerialUART := u

/-- The call `print(command)`: the C string in the buffer is sent. -/
def SerialUART.print (u : SerialUART) (buf : List Nat) : SerialUART :=
  { u with tx := u.tx ++ [cstr buf] }

/-- The call `readBytesUntil(terminator, buffer, length)`: the bytes received before
the terminator, at most `length` of them, and the device afterwards.  When the
script is exhausted the read times out with no byte. -/
def SerialUART.readBytesUntil (u : SerialUART) (terminator length : Nat) :
    List Nat × SerialUART :=
  match u.rx with
  | [] => ([], { u with reads := u.reads + 1 })
  | l :: rest =>
    ((l.takeWhile (fun b => b != terminator)).take length,
      { u with rx := rest, reads := u.reads + 1 })

/-- The calls `begin(BAUDRATE)` and `end()`. -/
def SerialUART.setBegun (u : SerialUART) (b : Bool) : SerialUART :=
  { u with begun := b }

/-- The class `KIM`: its data members, and the two output pins it drives. -/
structure KIM where
  kimState : retStatusKIM_t
  kimSerial : SerialUART
  isKIM2 : Bool
  response : List Nat
  command : List Nat
  AT_REQUEST : List Nat
  AT : List Nat
  USER_INT_KIM : Bool
  ON_OFF_KIM : Bool
  deriving DecidableEq, Repr

/-- One assignment `buf[idx] = v`. -/
def store (buf : List Nat) (w : Int × Nat) : List Nat :=
  if 0 ≤ w.1 then buf.set w.1.toNat w.2 else buf

/-- A sequence of assignments, in program order. -/
def applyStores (buf : List Nat) (ws : List (Int × Nat)) : List Nat :=
  ws.foldl store buf

/-- The loop `for (i = 0; i < n; i++) buf[i + off] = src[i];` as a list of stores. -/
def copyStores (off : Int) (n : Nat) (src : Nat → Nat) : List (Int × Nat) :=
  (List.range n).map (fun (i : Nat) => ((i : Int) + off, src i))

/-- The constructor `KIM::KIM(device)`.  The arrays `response` and `command` are not
initialised by it; their initial contents are the parameters `response0`, `command0`. -/
def KIM.new (device : SerialUART) (response0 command0 : List Nat) : KIM :=
  { kimState := UNKNOWN
    kimSerial := device
    isKIM2 := true
    response := response0
    command := command0
    AT_REQUEST := [61, 63, 13, 10, 0]
    AT := [65, 84, 43]
    USER_INT_KIM := false
    ON_OFF_KIM := false }

/-- The method `KIM_userWakeupPinToggle`: the pin goes high, then low after 50 ms. -/
def KIM_userWakeupPinToggle (s : KIM) : KIM :=
  let s1 := { s with USER_INT_KIM := true }
  { s1 with USER_INT_KIM := false }

/-- The method `KIM_powerON`. -/
def KIM_powerON (s : KIM) (powerON : Bool) : KIM :=
  if powerON then
    let s1 := { s with ON_OFF_KIM := powerON }
    { s1 with kimSerial := ((s1.kimSerial.setBegun true).flush).drainRx }
  else
    let s1 := { s with kimSerial := (s.kimSerial.flush).drainRx }
    let s2 := { s1 with ON_OFF_KIM := powerON }
    { s2 with kimSerial := s2.kimSerial.setBegun false }

/-- The method `KIM_getState`. -/
def KIM_getState (s : KIM) : retStatusKIM_t := s.kimState

/-- The method `KIM_isKIM2`. -/
def KIM_isKIM2 (s : KIM) : Bool := s.isKIM2

/-- The stores into `response` made by one pass of the read loop of `KIM_sendUART`:
`readBytesUntil` puts the received bytes at `0 .. k-1`, then `response[k] = '\0'`. -/
def KIM_sendUART_readStores (line : List Nat) : List (Int × Nat) :=
  copyStores 0 line.length (fun i => line.getD i 0) ++ [((line.length : Int), 0)]

/-- The first two statements of the loop body of `KIM_sendUART`:
`k = readBytesUntil('\n', response, 20); response[k] = '\0';`.  When 20 bytes were read,
the store `response[20] = '\0'` is one past the array `response`; `command` is the
member declared right after `response`, so that store lands in `command[0]`. -/
def KIM_sendUART_read (s : KIM) : KIM :=
  let r := s.kimSerial.readBytesUntil 10 20
  { s with kimSerial := r.2
           response := applyStores s.response (KIM_sendUART_readStores r.1)
           command := if r.1.length = 20 then store s.command (0, 0) else s.command }

/-- The test `response[1] != 'E' && response[2] == 'R'` of `KIM_sendUART`. -/
def isErrorPattern (response : List Nat) : Bool :=
  response.getD 1 0 != 69 && response.getD 2 0 == 82

/-- The loop `for ( ; i < 10; i++)` of `KIM_sendUART`, with `n = 10 - i` passes left. -/
def KIM_sendUART_loop : Nat → Bool → KIM → retStatusKIM_t × KIM
  | 0, _, s => (KIM_TIMEOUT, s)
  | n + 1, delayedResponse, s =>
    let s1 := KIM_sendUART_read s
    if s1.response.getD 0 0 = 43 then
      if isErrorPattern s1.response = true then
        (KIM_ERROR, s1)
      else if delayedResponse = false then
        (KIM_OK, s1)
      else
        KIM_sendUART_loop n false s1
    else
      KIM_sendUART_loop n delayedResponse s1

/-- The test `command[3] == 'T' && command[4] == 'X'` of `KIM_sendUART`. -/
def isDelayed (command : List Nat) : Bool :=
  command.getD 3 0 = 84 && command.getD 4 0 = 88

/-- The statements of `KIM_sendUART` that change the object before its read loop:
both directions are flushed, `response[0] = '\0'`, and `command` is printed. -/
def KIM_sendUART_start (s : KIM) : KIM :=
  let s1 := { s with kimSerial := (s.kimSerial.flush).drainRx }
  let s2 := { s1 with response := store s1.response (0, 0) }
  { s2 with kimSerial := s2.kimSerial.print s2.command }

/-- The method `KIM_sendUART`: the status it returns and the object afterwards. -/
def KIM_sendUART (s : KIM) : retStatusKIM_t × KIM :=
  let delayedResponse := isDelayed s.command
  let i := if delayedResponse = false then 5 else 0
  KIM_sendUART_loop (10 - i) delayedResponse (KIM_sendUART_start s)

/-- The tail `kimState = KIM_sendUART(); return &response[0];` shared by the three
senders.  The returned pointer is the field `response` of the result. -/
def KIM_exchange (s : KIM) : KIM :=
  let r := KIM_sendUART s
  { r.2 with kimState := r.1 }

/-- The stores into `command` made by `KIM_sendATCommandGet`. -/
def KIM_sendATCommandGet_stores (s : KIM) (ATcmd : List Nat) (len : Nat) :
    List (Int × Nat) :=
  copyStores 0 3 (fun i => s.AT.getD i 0)
    ++ copyStores 3 (len % 256) (fun i => ATcmd.getD i 0)
    ++ copyStores (3 + ((len % 256 : Nat) : Int)) 5 (fun i => s.AT_REQUEST.getD i 0)

/-- The three copy loops of `KIM_sendATCommandGet`: the object with the query built in
`command`. -/
def KIM_sendATCommandGet_encode (s : KIM) (ATcmd : List Nat) (len : Nat) : KIM :=
  { s with command := applyStores s.command (KIM_sendATCommandGet_stores s ATcmd len) }

/-- The method `KIM_sendATCommandGet(ATcmd, len)`. -/
def KIM_sendATCommandGet (s : KIM) (ATcmd : List Nat) (len : Nat) : KIM :=
  KIM_exchange (KIM_sendATCommandGet_encode s ATcmd len)

/-- The stores into `command` made by `KIM_sendATCommandSet`. -/
def KIM_sendATCommandSet_stores (s : KIM) (ATcmd : List Nat) (len : Nat)
    (ATcmdValue : List Nat) (valueLen : Nat) : List (Int × Nat) :=
  copyStores 0 3 (fun i => s.AT.getD i 0)
    ++ copyStores 3 (len % 256) (fun i => ATcmd.getD i 0)
    ++ [(3 + ((len % 256 : Nat) : Int), 61)]
    ++ copyStores (3 + ((len % 256 : Nat) : Int) + 1) (valueLen % 256)
        (fun i => ATcmdValue.getD i 0)
    ++ copyStores (3 + ((len % 256 : Nat) : Int) + 1 + ((valueLen % 256 : Nat) : Int))
        (5 - 2) (fun i => s.AT_REQUEST.getD (i + 2) 0)

/-- The copy loops of `KIM_sendATCommandSet`: the object with the command built in
`command`. -/
def KIM_sendATCommandSet_encode (s : KIM) (ATcmd : List Nat) (len : Nat)
    (ATcmdValue : List Nat) (valueLen : Nat) : KIM :=
  { s with command :=
      applyStores s.command (KIM_sendATCommandSet_stores s ATcmd len ATcmdValue valueLen) }

/-- The method `KIM_sendATCommandSet(ATcmd, len, ATcmdValue, valueLen)`. -/
def KIM_sendATCommandSet (s : KIM) (ATcmd : List Nat) (len : Nat)
    (ATcmdValue : List Nat) (valueLen : Nat) : KIM :=
  KIM_exchange (KIM_sendATCommandSet_encode s ATcmd len ATcmdValue valueLen)

/-- The stores into `command` made by `KIM_sendUARTRaw`.  The bound `len - 3` and the
three tail indices are computed in `int`, so they are negative for `len < 3`. -/
def KIM_sendUARTRaw_stores (RAWcmd : List Nat) (len : Nat) : List (Int × Nat) :=
  copyStores 0 (((len % 256 : Nat) : Int) - 3).toNat (fun i => RAWcmd.getD i 0)
    ++ [(((len % 256 : Nat) : Int) - 3, 13),
        (((len % 256 : Nat) : Int) - 2, 10),
        (((len % 256 : Nat) : Int) - 1, 0)]

/-- The copy loop and the three tail stores of `KIM_sendUARTRaw`. -/
def KIM_sendUARTRaw_encode (s : KIM) (RAWcmd : List Nat) (len : Nat) : KIM :=
  { s with command := applyStores s.command (KIM_sendUARTRaw_stores RAWcmd len) }

/-- The method `KIM_sendUARTRaw(RAWcmd, len)`. -/
def KIM_sendUARTRaw (s : KIM) (RAWcmd : List Nat) (len : Nat) : KIM :=
  KIM_exchange (KIM_sendUARTRaw_encode s RAWcmd len)

/-- The string literal `"PING"`. -/
def PING : List Nat := [80, 73, 78, 71]

/-- The branch of `KIM_check` that switches the dialect: `isKIM2` is negated and
`AT_REQUEST[3]` becomes `'\0'` or `'\n'`. -/
def KIM_check_flip (s : KIM) : KIM :=
  if s.isKIM2 = true then
    { s with isKIM2 := false, AT_REQUEST := store s.AT_REQUEST (3, 0) }
  else
    { s with isKIM2 := true, AT_REQUEST := store s.AT_REQUEST (3, 10) }

/-- The method `KIM_check`: its result and the object afterwards. -/
def KIM_check (s : KIM) : Bool × KIM :=
  let s0 := KIM_userWakeupPinToggle s
  let s1 := KIM_sendATCommandGet s0 PING 4
  let s2 := if s1.response.getD 0 0 ≠ 43 then KIM_sendATCommandGet (KIM_check_flip s1) PING 4
            else s1
  (if KIM_getState s2 = KIM_OK then true else false, s2)

/-- The hexadecimal digit printed by `%X` for a value below 16. -/
def hexDigit (d : Nat) : Nat :=
  if d < 10 then 48 + d else 55 + d

/-- The stores into `output` made by `KIM_uint2hexString`: each `sprintf` with
`"%02X"` writes two digits and a NUL at `2*idx`, `2*idx + 1`, `2*idx + 2`. -/
def KIM_uint2hexString_stores (input : List Nat) (len : Nat) : List (Int × Nat) :=
  (List.range (len % 256)).flatMap (fun idx =>
    [(((idx * 2 : Nat) : Int), hexDigit (input.getD idx 0 % 256 / 16)),
     (((idx * 2 : Nat) : Int) + 1, hexDigit (input.getD idx 0 % 256 % 16)),
     (((idx * 2 : Nat) : Int) + 2, 0)])

/-- The method `KIM_uint2hexString(input, len, output)`: the output array afterwards. -/
def KIM_uint2hexString (input : List Nat) (len : Nat) (output : List Nat) : List Nat :=
  applyStores output (KIM_uint2hexString_stores input len)

/-- The shape of a `KIM` object: the arrays have their declared sizes, `AT` holds
`"AT+"`, and `AT_REQUEST` holds the terminator of the current dialect. -/
def KIM.Inv (s : KIM) : Prop :=
  s.response.length = 20 ∧ s.command.length = 70 ∧ s.AT = [65, 84, 43] ∧
    s.AT_REQUEST = (if s.isKIM2 = true then [61, 63, 13, 10, 0] else [61, 63, 13, 0, 0])

instance (s : KIM) : Decidable s.Inv := by
  unfold KIM.Inv; infer_instance

/-- A call of one of the public methods of the class. -/
inductive Call where
  | sendATCommandGet (ATcmd : List Nat) (len : Nat)
  | sendATCommandSet (ATcmd : List Nat) (len : Nat) (ATcmdValue : List Nat) (valueLen : Nat)
  | sendUARTRaw (RAWcmd : List Nat) (len : Nat)
  | check
  | getState
  | isKIM2
  | powerON (powerON : Bool)
  | userWakeupPinToggle
  deriving DecidableEq, Repr

/-- The object after a call (the value the call returns is dropped). -/
def KIM.call (s : KIM) : Call → KIM
  | .sendATCommandGet ATcmd len => KIM_sendATCommandGet s ATcmd len
  | .sendATCommandSet ATcmd len ATcmdValue valueLen =>
    KIM_sendATCommandSet s ATcmd len ATcmdValue valueLen
  | .sendUARTRaw RAWcmd len => KIM_sendUARTRaw s RAWcmd len
  | .check => (KIM_check s).2
  | .getState => s
  | .isKIM2 => s
  | .powerON b => KIM_powerON s b
  | .userWakeupPinToggle => KIM_userWakeupPinToggle s

/-- The object after a sequence of calls. -/
def KIM.run (s : KIM) (calls : List Call) : KIM :=
  calls.foldl KIM.call s

/-- Whether a call runs `KIM_sendUART` at all. -/
def Call.exchanges : Call → Bool
  | .sendATCommandGet _ _ => true
  | .sendATCommandSet _ _ _ _ => true
  | .sendUARTRaw _ _ => true
  | .check => true
  | _ => false

/-- The status returned by the last run of `KIM_sendUART` inside a call made on `s`,
when the call runs it.  For `KIM_check` that is the retry when the first query left
no `'+'` in `response[0]`, and the first query otherwise. -/
def Call.lastExchange (s : KIM) : Call → Option retStatusKIM_t
  | .sendATCommandGet ATcmd len => some (KIM_sendUART (KIM_sendATCommandGet_encode s ATcmd len)).1
  | .sendATCommandSet ATcmd len ATcmdValue valueLen =>
    some (KIM_sendUART (KIM_sendATCommandSet_encode s ATcmd len ATcmdValue valueLen)).1
  | .sendUARTRaw RAWcmd len => some (KIM_sendUART (KIM_sendUARTRaw_encode s RAWcmd len)).1
  | .check =>
    let s1 := KIM_sendATCommandGet (KIM_userWakeupPinToggle s) PING 4
    if s1.response.getD 0 0 ≠ 43 then
      some (KIM_sendUART (KIM_sendATCommandGet_encode (KIM_check_flip s1) PING 4)).1
    else
      some (KIM_sendUART (KIM_sendATCommandGet_encode (KIM_userWakeupPinToggle s) PING 4)).1
  | _ => none

/-- The status returned by the most recent run of `KIM_sendUART` in a sequence of calls
made on `s`, and `last` when the sequence runs none. -/
def mostRecentExchange : KIM → retStatusKIM_t → List Call → retStatusKIM_t
  | _, last, [] => last
  | s, last, c :: calls =>
    mostRecentExchange (s.call c) ((c.lastExchange s).getD last) calls

/-- A serial device with a given script, nothing printed and nothing read yet. -/
def sampleUART (rx : List (List Nat)) : SerialUART :=
  { rx := rx, tx := [], reads := 0, begun := false }

/-- A freshly constructed object on a scripted device, its two arrays zero-filled. -/
def sampleKIM (rx : List (List Nat)) : KIM :=
  KIM.new (sampleUART rx) (List.replicate 20 0) (List.replicate 70 0)

/-- The object `sampleKIM rx` with a given content of `command`. -/
def sampleKIMWith (rx : List (List Nat)) (command : List Nat) : KIM :=
  { sampleKIM rx with command := command }

/-- A 70-byte `command` holding `"AT+TX=00\r\n"`: a delayed command. -/
def sampleTX : List Nat :=
  [65, 84, 43, 84, 88, 61, 48, 48, 13, 10] ++ List.replicate 60 0

/-- A 70-byte `command` holding `"AT+ID=?\r\n"`: a command that is not delayed. -/
def sampleID : List Nat :=
  [65, 84, 43, 73, 68, 61, 63, 13, 10] ++ List.replicate 61 0

/-- Whether the arguments of a call fit the 70-byte array `command`: a query verb of at
most 62 bytes, a verb and a value of at most 63 bytes together, a raw buffer of 3 to 70
bytes.  The calls without arguments always fit. -/
def Call.inCapacity : Call → Bool
  | .sendATCommandGet _ len => decide (len % 256 ≤ 62)
  | .sendATCommandSet _ len _ valueLen => decide (len % 256 + valueLen % 256 ≤ 63)
  | .sendUARTRaw _ len => decide (3 ≤ len % 256 ∧ len % 256 ≤ 70)
  | _ => true

/-- Reference rule for the outcome of an exchange that awaits no precursor, applied to
the lines of its reads: a line whose first byte is not `'+'` is skipped; the first line
that starts with `'+'` gives `KIM_ERROR` when its byte 1 is not `'E'` and its byte 2 is
`'R'`, and `KIM_OK` otherwise; without such a line the outcome is `KIM_TIMEOUT`. -/
def classifyLines : List (List Nat) → retStatusKIM_t
  | [] => KIM_TIMEOUT
  | l :: rest =>
    if l.head? = some 43 then
      (if l.getD 1 0 ≠ 69 ∧ l.getD 2 0 = 82 then KIM_ERROR else KIM_OK)
    else
      classifyLines rest

/-- Reference hexadecimal text of a byte array: for each byte the digit of its high
nibble, then the digit of its low nibble. -/
def hexString (input : List Nat) : List Nat :=
  input.flatMap (fun b => [hexDigit (b / 16), hexDigit (b % 16)])

/-- Whether a character is one of `'0'`-`'9'`, `'A'`-`'F'`. -/
def isUpperHexDigit (c : Nat) : Bool :=
  (48 ≤ c && c ≤ 57) || (65 ≤ c && c ≤ 70)

/-- The value of an uppercase hexadecimal digit. -/
def hexValue (c : Nat) : Nat :=
  if c ≤ 57 then c - 48 else c - 55

/-- Reading a hexadecimal text back, two digits per byte. -/
def parseHexString : List Nat → List Nat
  | a :: b :: rest => (hexValue a * 16 + hexValue b) :: parseHexString rest
  | _ => []

/-- The script entry consumed by the last read made between the object `s` and the
later object `s'` of the same device. -/
def lastLineRead (s s' : KIM) : List Nat :=
  s.kimSerial.rx.getD (s'.kimSerial.reads - s.kimSerial.reads - 1) []

/-- The text returned by an exchange that started in `s` and ended in `s'`: at least one
read was made, `response` starts with `'+'`, is not empty as a C string, and holds the
last line read followed by a NUL at the received length. -/
def holdsLastLine (s s' : KIM) : Prop :=
  s.kimSerial.reads < s'.kimSerial.reads ∧
  s'.response.getD 0 0 = 43 ∧
  cstr s'.response ≠ [] ∧
  s'.response.take (lastLineRead s s').length = lastLineRead s s' ∧
  s'.response[(lastLineRead s s').length]? = some 0

instance (s s' : KIM) : Decidable (holdsLastLine s s') := by
  unfold holdsLastLine; infer_instance

/-! Lemmas on stores and on the encoders, then the properties of the exchange. -/

theorem store_natCast (buf : List Nat) (n v : Nat) :
    store buf ((n : Int), v) = buf.set n v := by
  simp [store]

theorem store_length (buf : List Nat) (w : Int × Nat) :
    (store buf w).length = buf.length := by
  unfold store; split <;> simp

theorem applyStores_length (ws : List (Int × Nat)) (buf : List Nat) :
    (applyStores buf ws).length = buf.length := by
  induction ws generalizing buf with
  | nil => rfl
  | cons w ws ih => simp [applyStores, List.foldl] at ih ⊢; rw [ih, store_length]

theorem applyStores_append (buf : List Nat) (ws1 ws2 : List (Int × Nat)) :
    applyStores buf (ws1 ++ ws2) = applyStores (applyStores buf ws1) ws2 := by
  simp [applyStores, List.foldl_append]

theorem applyStores_cons (buf : List Nat) (w : Int × Nat) (ws : List (Int × Nat)) :
    applyStores buf (w :: ws) = applyStores (store buf w) ws := rfl

theorem applyStores_nil (buf : List Nat) : applyStores buf [] = buf := rfl

theorem copyStores_succ (off : Int) (n : Nat) (src : Nat → Nat) :
    copyStores off (n + 1) src = (off, src 0) :: copyStores (off + 1) n (fun i => src (i + 1)) := by
  simp [copyStores, List.range_succ_eq_map, List.map_map, Function.comp_def]
  intro a _
  omega

theorem applyStores_copyStores (n : Nat) : ∀ (off : Nat) (src : Nat → Nat) (pre mid post : List Nat),
    pre.length = off → mid.length = n →
    applyStores (pre ++ mid ++ post) (copyStores (off : Int) n src)
      = pre ++ (List.range n).map src ++ post := by
  induction n with
  | zero =>
    intro off src pre mid post _ h2
    have : mid = [] := List.length_eq_zero.mp h2
    simp [copyStores, applyStores, this]
  | succ n ih =>
    intro off src pre mid post h1 h2
    obtain ⟨x, mid', rfl⟩ : ∃ x mid', mid = x :: mid' := by
      cases mid with
      | nil => simp at h2
      | cons x m => exact ⟨x, m, rfl⟩
    rw [copyStores_succ, applyStores_cons, store_natCast]
    have hset : (pre ++ x :: mid' ++ post).set off (src 0) = (pre ++ [src 0]) ++ mid' ++ post := by
      subst h1
      simp [List.set_append]
    rw [hset]
    have hoff : ((off : Int) + 1) = ((off + 1 : Nat) : Int) := by push_cast; rfl
    rw [hoff, ih (off + 1) (fun i => src (i + 1)) (pre ++ [src 0]) mid' post (by simp [h1]) (by simpa using h2)]
    simp [List.range_succ_eq_map, List.map_map, Function.comp_def]

theorem map_getD_range (l : List Nat) : (List.range l.length).map (fun i => l.getD i 0) = l := by
  induction l with
  | nil => rfl
  | cons a l ih =>
    simp only [List.length_cons, List.range_succ_eq_map, List.map_cons, List.map_map]
    simpa [Function.comp_def] using ih

theorem cstr_append_zero (l r : List Nat) (h : ∀ b ∈ l, b ≠ 0) : cstr (l ++ 0 :: r) = l := by
  induction l with
  | nil => simp [cstr]
  | cons a l ih =>
    have ha : a ≠ 0 := h a (by simp)
    have := ih (fun b hb => h b (by simp [hb]))
    simp [cstr, List.takeWhile_cons, ha] at this ⊢
    exact this

theorem applyStores_copyStores_at (off : Int) (n : Nat) (src : Nat → Nat)
    (pre mid post : List Nat) (h1 : off = (pre.length : Int)) (h2 : mid.length = n) :
    applyStores (pre ++ mid ++ post) (copyStores off n src)
      = pre ++ (List.range n).map src ++ post := by
  subst h1
  exact applyStores_copyStores n pre.length src pre mid post rfl h2

theorem split_at (buf : List Nat) (off n : Nat) :
    buf = buf.take off ++ (buf.drop off).take n ++ buf.drop (off + n) := by
  rw [List.append_assoc, ← List.drop_drop, List.take_append_drop, List.take_append_drop]

theorem applyStores_copyStores_buf (buf : List Nat) (off : Int) (k n : Nat) (src : Nat → Nat)
    (hk : off = (k : Int)) (h : k + n ≤ buf.length) :
    applyStores buf (copyStores off n src)
      = buf.take k ++ (List.range n).map src ++ buf.drop (k + n) := by
  conv_lhs => rw [split_at buf k n]
  apply applyStores_copyStores_at
  · simp [hk]; omega
  · simp; omega

theorem split3 (buf : List Nat) (a b c : Nat) (h : a + b + c ≤ buf.length) :
    ∃ p0 p1 p2 : List Nat, buf = p0 ++ p1 ++ p2 ++ buf.drop (a + b + c) ∧
      p0.length = a ∧ p1.length = b ∧ p2.length = c := by
  refine ⟨buf.take a, (buf.drop a).take b, (buf.drop (a + b)).take c, ?_, ?_, ?_, ?_⟩
  · rw [List.append_assoc, List.append_assoc, ← List.drop_drop c (a + b),
      List.take_append_drop, ← List.drop_drop b a, List.take_append_drop,
      List.take_append_drop]
  · simp; omega
  · simp; omega
  · simp; omega

theorem Get_command (s : KIM) (ATcmd : List Nat) (len : Nat) (hI : s.Inv)
    (hlen : ATcmd.length = len) (hcap : len ≤ 62) :
    applyStores s.command (KIM_sendATCommandGet_stores s ATcmd len)
      = [65, 84, 43] ++ ATcmd ++ s.AT_REQUEST ++ s.command.drop (len + 8) := by
  obtain ⟨_, hc, hAT, hREQ⟩ := hI
  have hm : len % 256 = len := Nat.mod_eq_of_lt (by omega)
  have hR5 : s.AT_REQUEST.length = 5 := by rw [hREQ]; split <;> rfl
  have e1 : (List.range 3).map (fun i => s.AT.getD i 0) = [65, 84, 43] := by
    rw [hAT]; rfl
  have e2 : (List.range len).map (fun i => ATcmd.getD i 0) = ATcmd := by
    rw [← hlen]; exact map_getD_range ATcmd
  have e3 : (List.range 5).map (fun i => s.AT_REQUEST.getD i 0) = s.AT_REQUEST := by
    rw [← hR5]; exact map_getD_range _
  obtain ⟨p0, p1, p2, hB, hp0, hp1, hp2⟩ := split3 s.command 3 len 5 (by omega)
  have hd : 3 + len + 5 = len + 8 := by omega
  rw [hd] at hB
  generalize s.command.drop (len + 8) = post at hB ⊢
  unfold KIM_sendATCommandGet_stores
  rw [hm, applyStores_append, applyStores_append, hB]
  have s1 := applyStores_copyStores_at 0 3 (fun i => s.AT.getD i 0) [] p0 (p1 ++ p2 ++ post)
    rfl hp0
  rw [e1] at s1
  have s2 := applyStores_copyStores_at 3 len (fun i => ATcmd.getD i 0) [65, 84, 43] p1
    (p2 ++ post) rfl hp1
  rw [e2] at s2
  have s3 := applyStores_copyStores_at (3 + (len : Int)) 5 (fun i => s.AT_REQUEST.getD i 0)
    ([65, 84, 43] ++ ATcmd) p2 post (by simp [hlen]; omega) hp2
  rw [e3] at s3
  simp only [List.append_assoc, List.nil_append] at s1 s2 s3 ⊢
  rw [s1, s2, s3]

theorem split5 (buf : List Nat) (a b c d e : Nat) (h : a + b + c + d + e ≤ buf.length) :
    ∃ p0 p1 p2 p3 p4 : List Nat,
      buf = p0 ++ p1 ++ p2 ++ p3 ++ p4 ++ buf.drop (a + b + c + d + e) ∧
      p0.length = a ∧ p1.length = b ∧ p2.length = c ∧ p3.length = d ∧ p4.length = e := by
  refine ⟨buf.take a, (buf.drop a).take b, (buf.drop (a + b)).take c,
    (buf.drop (a + b + c)).take d, (buf.drop (a + b + c + d)).take e, ?_, ?_, ?_, ?_, ?_, ?_⟩
  · rw [List.append_assoc, List.append_assoc, List.append_assoc, List.append_assoc,
      ← List.drop_drop e (a + b + c + d), List.take_append_drop,
      ← List.drop_drop d (a + b + c), List.take_append_drop,
      ← List.drop_drop c (a + b), List.take_append_drop,
      ← List.drop_drop b a, List.take_append_drop, List.take_append_drop]
  all_goals (simp; omega)

theorem single_store (off : Int) (v : Nat) : [(off, v)] = copyStores off 1 (fun _ => v) := by
  simp [copyStores, List.range_succ]

theorem Set_command (s : KIM) (ATcmd : List Nat) (len : Nat) (ATcmdValue : List Nat)
    (valueLen : Nat) (hI : s.Inv) (hlen : ATcmd.length = len)
    (hvlen : ATcmdValue.length = valueLen) (hcap : len + valueLen ≤ 63) :
    applyStores s.command (KIM_sendATCommandSet_stores s ATcmd len ATcmdValue valueLen)
      = [65, 84, 43] ++ ATcmd ++ [61] ++ ATcmdValue ++ s.AT_REQUEST.drop 2
          ++ s.command.drop (len + valueLen + 7) := by
  obtain ⟨_, hc, hAT, hREQ⟩ := hI
  have hm : len % 256 = len := Nat.mod_eq_of_lt (by omega)
  have hvm : valueLen % 256 = valueLen := Nat.mod_eq_of_lt (by omega)
  have e1 : (List.range 3).map (fun i => s.AT.getD i 0) = [65, 84, 43] := by
    rw [hAT]; rfl
  have e2 : (List.range len).map (fun i => ATcmd.getD i 0) = ATcmd := by
    rw [← hlen]; exact map_getD_range ATcmd
  have e3 : (List.range valueLen).map (fun i => ATcmdValue.getD i 0) = ATcmdValue := by
    rw [← hvlen]; exact map_getD_range ATcmdValue
  have e4 : (List.range (5 - 2)).map (fun i => s.AT_REQUEST.getD (i + 2) 0)
      = s.AT_REQUEST.drop 2 := by
    rw [hREQ]; split <;> rfl
  obtain ⟨p0, p1, p2, p3, p4, hB, hp0, hp1, hp2, hp3, hp4⟩ :=
    split5 s.command 3 len 1 valueLen 3 (by omega)
  have hd : 3 + len + 1 + valueLen + 3 = len + valueLen + 7 := by omega
  rw [hd] at hB
  generalize s.command.drop (len + valueLen + 7) = post at hB ⊢
  unfold KIM_sendATCommandSet_stores
  rw [hm, hvm, single_store, applyStores_append, applyStores_append, applyStores_append,
    applyStores_append, hB]
  have s1 := applyStores_copyStores_at 0 3 (fun i => s.AT.getD i 0) [] p0
    (p1 ++ p2 ++ p3 ++ p4 ++ post) rfl hp0
  rw [e1] at s1
  have s2 := applyStores_copyStores_at 3 len (fun i => ATcmd.getD i 0) [65, 84, 43] p1
    (p2 ++ p3 ++ p4 ++ post) rfl hp1
  rw [e2] at s2
  have s3 := applyStores_copyStores_at (3 + (len : Int)) 1 (fun _ => 61)
    ([65, 84, 43] ++ ATcmd) p2 (p3 ++ p4 ++ post) (by simp [hlen]; omega) hp2
  have e5 : (List.range 1).map (fun _ => 61) = [61] := rfl
  rw [e5] at s3
  have s4 := applyStores_copyStores_at (3 + (len : Int) + 1) valueLen
    (fun i => ATcmdValue.getD i 0) ([65, 84, 43] ++ ATcmd ++ [61]) p3 (p4 ++ post)
    (by simp [hlen]; omega) hp3
  rw [e3] at s4
  have s5 := applyStores_copyStores_at (3 + (len : Int) + 1 + (valueLen : Int)) (5 - 2)
    (fun i => s.AT_REQUEST.getD (i + 2) 0) ([65, 84, 43] ++ ATcmd ++ [61] ++ ATcmdValue) p4 post
    (by simp [hlen, hvlen]; omega) hp4
  rw [e4] at s5
  simp only [List.append_assoc, List.nil_append]
    at s1 s2 s3 s4 s5 ⊢
  rw [s1, s2, s3, s4, s5]

theorem Inv_AT_REQUEST_A (s : KIM) (hI : s.Inv) (h : s.isKIM2 = true) :
    s.AT_REQUEST = [61, 63, 13, 10, 0] := by
  have := hI.2.2.2; simpa [h] using this

theorem Inv_AT_REQUEST_B (s : KIM) (hI : s.Inv) (h : s.isKIM2 = false) :
    s.AT_REQUEST = [61, 63, 13, 0, 0] := by
  have := hI.2.2.2; simpa [h] using this

theorem loop_preserves (P : KIM → Prop) (hP : ∀ s, P s → P (KIM_sendUART_read s)) :
    ∀ (n : Nat) (d : Bool) (s : KIM), P s → P (KIM_sendUART_loop n d s).2 := by
  intro n
  induction n with
  | zero => intro d s h; exact h
  | succ n ih =>
    intro d s h
    have h1 := hP s h
    unfold KIM_sendUART_loop
    simp only
    split
    · split
      · exact h1
      · split
        · exact h1
        · exact ih false _ h1
    · exact ih d _ h1

theorem read_command_length (s : KIM) :
    (KIM_sendUART_read s).command.length = s.command.length := by
  simp only [KIM_sendUART_read]
  split
  · exact store_length _ _
  · rfl

/-- A read of fewer than 20 bytes leaves `command` as it is; a read of 20 bytes puts a
NUL in `command[0]`. -/
theorem read_command (s : KIM) :
    (KIM_sendUART_read s).command
      = if (s.kimSerial.readBytesUntil 10 20).1.length = 20 then store s.command (0, 0)
        else s.command := by
  simp only [KIM_sendUART_read]

/-- The query `"AT+ID=?"` on a device that delivers 25 bytes without a line end: the read
of 20 bytes puts a NUL in `command[0]`; with 19 bytes `command` keeps its `'A'`. -/
theorem read_twenty_bytes_command :
    (KIM_sendATCommandGet (sampleKIM [List.replicate 25 65]) [73, 68] 2).command.take 3
      = [0, 84, 43] ∧
    (KIM_sendATCommandGet (sampleKIM [List.replicate 19 65]) [73, 68] 2).command.take 3
      = [65, 84, 43] := by
  decide

theorem sendUART_command_length (s : KIM) :
    (KIM_sendUART s).2.command.length = s.command.length :=
  loop_preserves (fun t => t.command.length = s.command.length)
    (fun t h => (read_command_length t).trans h) _ _ _ rfl

theorem sendUART_isKIM2 (s : KIM) : (KIM_sendUART s).2.isKIM2 = s.isKIM2 :=
  loop_preserves (fun t => t.isKIM2 = s.isKIM2) (fun _ h => h) _ _ _ rfl

theorem sendUART_AT (s : KIM) : (KIM_sendUART s).2.AT = s.AT :=
  loop_preserves (fun t => t.AT = s.AT) (fun _ h => h) _ _ _ rfl

theorem sendUART_AT_REQUEST (s : KIM) : (KIM_sendUART s).2.AT_REQUEST = s.AT_REQUEST :=
  loop_preserves (fun t => t.AT_REQUEST = s.AT_REQUEST) (fun _ h => h) _ _ _ rfl

theorem sendUART_kimState (s : KIM) : (KIM_sendUART s).2.kimState = s.kimState :=
  loop_preserves (fun t => t.kimState = s.kimState) (fun _ h => h) _ _ _ rfl

theorem read_tx (s : KIM) : (KIM_sendUART_read s).kimSerial.tx = s.kimSerial.tx := by
  unfold KIM_sendUART_read SerialUART.readBytesUntil
  cases s.kimSerial.rx <;> rfl

theorem sendUART_tx (s : KIM) :
    (KIM_sendUART s).2.kimSerial.tx = s.kimSerial.tx ++ [cstr s.command] :=
  loop_preserves (fun t => t.kimSerial.tx = s.kimSerial.tx ++ [cstr s.command])
    (fun t h => (read_tx t).trans h) _ _ _ rfl

theorem read_response_length (s : KIM) :
    (KIM_sendUART_read s).response.length = s.response.length := by
  simp [KIM_sendUART_read, applyStores_length]

theorem sendUART_response_length (s : KIM) :
    (KIM_sendUART s).2.response.length = s.response.length :=
  loop_preserves (fun t => t.response.length = s.response.length)
    (fun t h => (read_response_length t).trans h) _ _ _
    (by simp [KIM_sendUART_start, store_length])

theorem sendUART_Inv (s : KIM) (hI : s.Inv) : (KIM_sendUART s).2.Inv := by
  unfold KIM.Inv
  rw [sendUART_response_length, sendUART_command_length, sendUART_AT, sendUART_AT_REQUEST,
    sendUART_isKIM2]
  exact hI

theorem exchange_tx (s : KIM) :
    (KIM_exchange s).kimSerial.tx = s.kimSerial.tx ++ [cstr s.command] := sendUART_tx s

/-- The C string that `KIM_sendATCommandGet` builds in `command`. -/
theorem Get_cstr (s : KIM) (verb : List Nat) (len : Nat) (hI : s.Inv)
    (hlen : verb.length = len) (hcap : len ≤ 62) (hnz : ∀ b ∈ verb, b ≠ 0) :
    cstr (KIM_sendATCommandGet_encode s verb len).command
      = [65, 84, 43] ++ verb ++ (if s.isKIM2 = true then [61, 63, 13, 10] else [61, 63, 13]) := by
  unfold KIM_sendATCommandGet_encode
  simp only [Get_command s verb len hI hlen hcap]
  cases hk : s.isKIM2
  · rw [Inv_AT_REQUEST_B s hI hk]
    have := cstr_append_zero ([65, 84, 43] ++ verb ++ [61, 63, 13])
      (0 :: s.command.drop (len + 8)) (by
        intro b hb
        simp only [List.mem_append, List.mem_cons, List.mem_singleton] at hb
        rcases hb with (hb | hb) | hb
        · rcases hb with rfl | rfl | rfl | hb <;> simp at *
        · exact hnz b hb
        · rcases hb with rfl | rfl | rfl | hb <;> simp at *)
    simpa using this
  · rw [Inv_AT_REQUEST_A s hI hk]
    have := cstr_append_zero ([65, 84, 43] ++ verb ++ [61, 63, 13, 10])
      (s.command.drop (len + 8)) (by
        intro b hb
        simp only [List.mem_append, List.mem_cons, List.mem_singleton] at hb
        rcases hb with (hb | hb) | hb
        · rcases hb with rfl | rfl | rfl | hb <;> simp at *
        · exact hnz b hb
        · rcases hb with rfl | rfl | rfl | rfl | hb <;> simp at *)
    simpa using this

/-- Claim C2. `KIM_sendATCommandGet`: for a verb of `len ≤ 62` bytes without a zero byte, the
string handed to the serial port is `"AT+" ++ verb ++ "=?\r\n"` when `isKIM2` is true
and `"AT+" ++ verb ++ "=?\r"` when it is false. -/
theorem sendATCommandGet_frame (s : KIM) (verb : List Nat) (len : Nat) (hI : s.Inv)
    (hlen : verb.length = len) (hcap : len ≤ 62) (hnz : ∀ b ∈ verb, b ≠ 0) :
    (KIM_sendATCommandGet s verb len).kimSerial.tx
      = s.kimSerial.tx ++
        [[65, 84, 43] ++ verb ++ (if s.isKIM2 = true then [61, 63, 13, 10] else [61, 63, 13])] := by
  unfold KIM_sendATCommandGet
  rw [exchange_tx, Get_cstr s verb len hI hlen hcap hnz]
  rfl

/-- Claim C1 (amended). `KIM_sendATCommandSet`: for a verb and a value without zero bytes and
with `len + valueLen ≤ 63`, the string handed to the serial port is
`"AT+" ++ verb ++ "=" ++ value ++ "\r\n"` when `isKIM2` is true and
`"AT+" ++ verb ++ "=" ++ value ++ "\r"` when `isKIM2` is false. -/
theorem sendATCommandSet_frame (s : KIM) (verb : List Nat) (len : Nat) (value : List Nat)
    (valueLen : Nat) (hI : s.Inv) (hlen : verb.length = len)
    (hvlen : value.length = valueLen) (hcap : len + valueLen ≤ 63)
    (hnz : ∀ b ∈ verb, b ≠ 0) (hvnz : ∀ b ∈ value, b ≠ 0) :
    (KIM_sendATCommandSet s verb len value valueLen).kimSerial.tx
      = s.kimSerial.tx ++
        [[65, 84, 43] ++ verb ++ [61] ++ value ++ (if s.isKIM2 = true then [13, 10] else [13])] := by
  unfold KIM_sendATCommandSet KIM_sendATCommandSet_encode
  rw [exchange_tx]
  simp only [Set_command s verb len value valueLen hI hlen hvlen hcap]
  congr 2
  have hmem : ∀ (t : List Nat), (∀ b ∈ t, b ≠ 0) →
      ∀ b ∈ [65, 84, 43] ++ verb ++ [61] ++ value ++ t, b ≠ 0 := by
    intro t ht b hb
    simp only [List.mem_append, List.mem_cons, List.mem_singleton] at hb
    rcases hb with (((hb | hb) | hb) | hb) | hb
    · rcases hb with rfl | rfl | rfl | hb <;> simp at *
    · exact hnz b hb
    · rcases hb with rfl | hb <;> simp at *
    · exact hvnz b hb
    · exact ht b hb
  cases hk : s.isKIM2
  · rw [Inv_AT_REQUEST_B s hI hk]
    have := cstr_append_zero ([65, 84, 43] ++ verb ++ [61] ++ value ++ [13])
      (0 :: s.command.drop (len + valueLen + 7)) (hmem [13] (by simp))
    simpa using this
  · rw [Inv_AT_REQUEST_A s hI hk]
    have := cstr_append_zero ([65, 84, 43] ++ verb ++ [61] ++ value ++ [13, 10])
      (s.command.drop (len + valueLen + 7)) (hmem [13, 10] (by simp))
    simpa using this

theorem readStores_apply (resp line : List Nat) (h : line.length ≤ resp.length) :
    applyStores resp (KIM_sendUART_readStores line)
      = (line ++ resp.drop line.length).set line.length 0 := by
  unfold KIM_sendUART_readStores
  rw [applyStores_append, applyStores_copyStores_buf resp 0 0 line.length _ rfl (by omega),
    map_getD_range, applyStores_cons, applyStores_nil, store_natCast]
  simp

theorem readBytesUntil_length (u : SerialUART) (t n : Nat) :
    (u.readBytesUntil t n).1.length ≤ n := by
  unfold SerialUART.readBytesUntil
  split
  · simp
  · simp [List.length_take]

theorem read_response (s : KIM) (h : s.response.length = 20) :
    (KIM_sendUART_read s).response
      = ((s.kimSerial.readBytesUntil 10 20).1
          ++ s.response.drop (s.kimSerial.readBytesUntil 10 20).1.length).set
            (s.kimSerial.readBytesUntil 10 20).1.length 0 := by
  have := readBytesUntil_length s.kimSerial 10 20
  simp only [KIM_sendUART_read]
  rw [readStores_apply _ _ (by omega)]

theorem read_rx (s : KIM) : (KIM_sendUART_read s).kimSerial.rx = s.kimSerial.rx.tail := by
  unfold KIM_sendUART_read SerialUART.readBytesUntil
  cases s.kimSerial.rx <;> rfl

theorem read_reads (s : KIM) :
    (KIM_sendUART_read s).kimSerial.reads = s.kimSerial.reads + 1 := by
  unfold KIM_sendUART_read SerialUART.readBytesUntil
  cases s.kimSerial.rx <;> rfl

theorem readBytesUntil_cons (u : SerialUART) (l : List Nat) (rest : List (List Nat))
    (h : u.rx = l :: rest) (t n : Nat) :
    (u.readBytesUntil t n).1 = (l.takeWhile (fun b => b != t)).take n := by
  unfold SerialUART.readBytesUntil
  rw [h]

theorem readBytesUntil_nil (u : SerialUART) (h : u.rx = []) (t n : Nat) :
    (u.readBytesUntil t n).1 = [] := by
  unfold SerialUART.readBytesUntil
  rw [h]

/-- After a read that received at least three bytes, the first three bytes of `response`
are those bytes. -/
theorem read_getD_three (s : KIM) (h : s.response.length = 20) (a b c : Nat) (t : List Nat)
    (hr : (s.kimSerial.readBytesUntil 10 20).1 = a :: b :: c :: t) :
    (KIM_sendUART_read s).response.getD 0 0 = a ∧
    (KIM_sendUART_read s).response.getD 1 0 = b ∧
    (KIM_sendUART_read s).response.getD 2 0 = c := by
  rw [read_response s h, hr]
  simp

/-- After a read, `response[0]` is the first received byte, or NUL when none came. -/
theorem read_getD_zero (s : KIM) (h : s.response.length = 20) :
    (KIM_sendUART_read s).response.getD 0 0
      = (s.kimSerial.readBytesUntil 10 20).1.headD 0 := by
  rw [read_response s h]
  cases hr : (s.kimSerial.readBytesUntil 10 20).1 with
  | nil =>
    cases hresp : s.response with
    | nil => simp [hresp] at h
    | cons x xs => simp
  | cons a t => simp

theorem readBytesUntil_headD (u : SerialUART) (h : ∀ l ∈ u.rx.take 1, l.head? ≠ some 43) :
    (u.readBytesUntil 10 20).1.headD 0 ≠ 43 := by
  unfold SerialUART.readBytesUntil
  cases hrx : u.rx with
  | nil => simp
  | cons l rest =>
    have hl : l.head? ≠ some 43 := h l (by simp [hrx])
    cases l with
    | nil => simp
    | cons x xs =>
      simp only [List.head?_cons, ne_eq, Option.some.injEq] at hl
      simp only [List.takeWhile_cons]
      split <;> simp [hl]

theorem mem_take_tail {α : Type} (l : α) (xs : List α) (n : Nat) (h : l ∈ xs.tail.take n) :
    l ∈ xs.take (n + 1) := by
  cases xs with
  | nil => simp at h
  | cons x xs => simp at h ⊢; exact Or.inr h

theorem mem_take_one {α : Type} (l : α) (xs : List α) (n : Nat) (h : l ∈ xs.take 1) :
    l ∈ xs.take (n + 1) := by
  cases xs with
  | nil => simp at h
  | cons x xs => simp at h ⊢; exact Or.inl h

theorem loop_zero (d : Bool) (s : KIM) : KIM_sendUART_loop 0 d s = (KIM_TIMEOUT, s) := rfl

theorem loop_succ_skip (n : Nat) (d : Bool) (s : KIM)
    (h : (KIM_sendUART_read s).response.getD 0 0 ≠ 43) :
    KIM_sendUART_loop (n + 1) d s = KIM_sendUART_loop n d (KIM_sendUART_read s) := by
  rw [KIM_sendUART_loop]
  simp only [h, if_false]

theorem loop_succ_error (n : Nat) (d : Bool) (s : KIM)
    (h : (KIM_sendUART_read s).response.getD 0 0 = 43)
    (he : isErrorPattern (KIM_sendUART_read s).response = true) :
    KIM_sendUART_loop (n + 1) d s = (KIM_ERROR, KIM_sendUART_read s) := by
  rw [KIM_sendUART_loop]
  simp only [h, he, if_true]

theorem loop_succ_ok (n : Nat) (s : KIM)
    (h : (KIM_sendUART_read s).response.getD 0 0 = 43)
    (he : isErrorPattern (KIM_sendUART_read s).response = false) :
    KIM_sendUART_loop (n + 1) false s = (KIM_OK, KIM_sendUART_read s) := by
  rw [KIM_sendUART_loop]
  simp only [h, he, if_true, Bool.false_eq_true, if_false, Bool.true_eq_false]

theorem loop_succ_precursor (n : Nat) (s : KIM)
    (h : (KIM_sendUART_read s).response.getD 0 0 = 43)
    (he : isErrorPattern (KIM_sendUART_read s).response = false) :
    KIM_sendUART_loop (n + 1) true s = KIM_sendUART_loop n false (KIM_sendUART_read s) := by
  rw [KIM_sendUART_loop]
  simp only [h, he, if_true, Bool.false_eq_true, if_false, Bool.true_eq_false]

/-- When none of the next `n` reads receives a line starting with `'+'`, the loop makes
exactly `n` reads and ends with `KIM_TIMEOUT`. -/
theorem loop_timeout (n : Nat) : ∀ (d : Bool) (s : KIM), s.response.length = 20 →
    (∀ l ∈ s.kimSerial.rx.take n, l.head? ≠ some 43) →
    (KIM_sendUART_loop n d s).1 = KIM_TIMEOUT ∧
    (KIM_sendUART_loop n d s).2.kimSerial.reads = s.kimSerial.reads + n ∧
    (KIM_sendUART_loop n d s).2.kimSerial.rx = s.kimSerial.rx.drop n ∧
    (0 < n → (KIM_sendUART_loop n d s).2.response.getD 0 0 ≠ 43) := by
  induction n with
  | zero => intro d s _ _; simp [loop_zero]
  | succ n ih =>
    intro d s hlen hrx
    have h0 : (KIM_sendUART_read s).response.getD 0 0 ≠ 43 := by
      rw [read_getD_zero s hlen]
      exact readBytesUntil_headD _ (fun l hl => hrx l (mem_take_one l _ n hl))
    rw [loop_succ_skip n d s h0]
    have hlen1 : (KIM_sendUART_read s).response.length = 20 := by
      rw [read_response_length]; exact hlen
    obtain ⟨a, b, c, e⟩ := ih d (KIM_sendUART_read s) hlen1 (by
      intro l hl
      rw [read_rx] at hl
      exact hrx l (mem_take_tail l _ n hl))
    refine ⟨a, ?_, ?_, ?_⟩
    · rw [b, read_reads]; omega
    · rw [c, read_rx]; simp
    · intro _
      rcases Nat.eq_zero_or_pos n with hn | hn
      · subst hn; rw [loop_zero]; exact h0
      · exact e hn

theorem loop_ne_UNKNOWN (n : Nat) : ∀ (d : Bool) (s : KIM),
    (KIM_sendUART_loop n d s).1 ≠ UNKNOWN := by
  induction n with
  | zero => intro d s; simp [loop_zero]
  | succ n ih =>
    intro d s
    rw [KIM_sendUART_loop]
    split
    · split
      · simp
      · split
        · simp
        · exact ih _ _
    · exact ih _ _

/-- An exchange that ends with `KIM_OK` or `KIM_ERROR` leaves a line starting with `'+'`
in `response`. -/
theorem loop_decided (n : Nat) : ∀ (d : Bool) (s : KIM),
    (KIM_sendUART_loop n d s).1 ≠ KIM_TIMEOUT →
    (KIM_sendUART_loop n d s).2.response.getD 0 0 = 43 := by
  induction n with
  | zero => intro d s h; simp [loop_zero] at h
  | succ n ih =>
    intro d s
    rw [KIM_sendUART_loop]
    split
    · rename_i h43
      split
      · intro _; exact h43
      · split
        · intro _; exact h43
        · exact ih _ _
    · exact ih _ _

theorem sendUART_ne_UNKNOWN (s : KIM) : (KIM_sendUART s).1 ≠ UNKNOWN :=
  loop_ne_UNKNOWN _ _ _

theorem start_response_length (s : KIM) :
    (KIM_sendUART_start s).response.length = s.response.length := by
  simp [KIM_sendUART_start, store_length]

theorem start_rx (s : KIM) : (KIM_sendUART_start s).kimSerial.rx = s.kimSerial.rx := rfl

theorem start_reads (s : KIM) :
    (KIM_sendUART_start s).kimSerial.reads = s.kimSerial.reads := rfl

theorem readBytesUntil_fst_congr (u v : SerialUART) (h : u.rx = v.rx) (t n : Nat) :
    (u.readBytesUntil t n).1 = (v.readBytesUntil t n).1 := by
  unfold SerialUART.readBytesUntil
  rw [h]
  cases v.rx <;> rfl

theorem readBytesUntil_snd_rx (u : SerialUART) (t n : Nat) :
    (u.readBytesUntil t n).2.rx = u.rx.tail := by
  unfold SerialUART.readBytesUntil
  cases u.rx <;> rfl

theorem start_first_read (s : KIM) :
    ((KIM_sendUART_start s).kimSerial.readBytesUntil 10 20).1
      = (s.kimSerial.readBytesUntil 10 20).1 :=
  readBytesUntil_fst_congr _ _ (start_rx s) 10 20

theorem start_second_read (s : KIM) :
    ((KIM_sendUART_read (KIM_sendUART_start s)).kimSerial.readBytesUntil 10 20).1
      = ((s.kimSerial.readBytesUntil 10 20).2.readBytesUntil 10 20).1 := by
  apply readBytesUntil_fst_congr
  rw [read_rx, start_rx, readBytesUntil_snd_rx]

theorem sendUART_not_delayed (s : KIM) (h : isDelayed s.command = false) :
    KIM_sendUART s = KIM_sendUART_loop 5 false (KIM_sendUART_start s) := by
  simp [KIM_sendUART, h]

theorem sendUART_delayed (s : KIM) (h : isDelayed s.command = true) :
    KIM_sendUART s = KIM_sendUART_loop 10 true (KIM_sendUART_start s) := by
  simp [KIM_sendUART, h]

theorem isErrorPattern_three (s : KIM) (h : s.response.length = 20) (a b c : Nat)
    (t : List Nat) (hr : (s.kimSerial.readBytesUntil 10 20).1 = a :: b :: c :: t) :
    isErrorPattern (KIM_sendUART_read s).response = (b != 69 && c == 82) := by
  obtain ⟨_, h1, h2⟩ := read_getD_three s h a b c t hr
  unfold isErrorPattern
  rw [h1, h2]

/-- A pass of the loop that reads a line starting with `"+OK"` while no precursor is
awaited ends the exchange with `KIM_OK`. -/
theorem loop_plusOK (n : Nat) (s : KIM) (t : List Nat) (hlen : s.response.length = 20)
    (hr : (s.kimSerial.readBytesUntil 10 20).1 = 43 :: 79 :: 75 :: t) :
    KIM_sendUART_loop (n + 1) false s = (KIM_OK, KIM_sendUART_read s) := by
  obtain ⟨g0, _, _⟩ := read_getD_three _ hlen 43 79 75 t hr
  have he := isErrorPattern_three _ hlen 43 79 75 t hr
  exact loop_succ_ok n s g0 (by rw [he]; rfl)

/-- Claim C4. `KIM_sendUART`, success reply: for a command that is not delayed, when the first
read returns a line starting with `"+OK"` the exchange returns `KIM_OK` after exactly
one read, whatever the device would deliver afterwards. -/
theorem sendUART_ok_first_read (s : KIM) (t : List Nat) (hI : s.Inv)
    (hnd : isDelayed s.command = false)
    (h1 : (s.kimSerial.readBytesUntil 10 20).1 = 43 :: 79 :: 75 :: t) :
    (KIM_sendUART s).1 = KIM_OK ∧
    (KIM_sendUART s).2.kimSerial.reads = s.kimSerial.reads + 1 ∧
    (KIM_sendUART s).2.kimSerial.rx = s.kimSerial.rx.tail := by
  have hlen : (KIM_sendUART_start s).response.length = 20 := by
    rw [start_response_length]; exact hI.1
  have hr := (start_first_read s).trans h1
  rw [sendUART_not_delayed s hnd, loop_plusOK 4 _ t hlen hr]
  exact ⟨rfl, by rw [read_reads, start_reads], by rw [read_rx, start_rx]⟩

/-- The classification of a first line starting with `'+'`, `'E'`, `'R'` by `KIM_sendUART`
when the command is not delayed: the exchange returns `KIM_OK` after one read. -/
theorem sendUART_plusER_first_read (s : KIM) (t : List Nat) (hI : s.Inv)
    (hnd : isDelayed s.command = false)
    (h1 : (s.kimSerial.readBytesUntil 10 20).1 = 43 :: 69 :: 82 :: t) :
    (KIM_sendUART s).1 = KIM_OK ∧
    (KIM_sendUART s).2.kimSerial.reads = s.kimSerial.reads + 1 := by
  have hlen : (KIM_sendUART_start s).response.length = 20 := by
    rw [start_response_length]; exact hI.1
  have hr := (start_first_read s).trans h1
  obtain ⟨g0, _, _⟩ := read_getD_three _ hlen 43 69 82 t hr
  have he := isErrorPattern_three _ hlen 43 69 82 t hr
  rw [sendUART_not_delayed s hnd, loop_succ_ok 4 _ g0 (by rw [he]; rfl)]
  exact ⟨rfl, by rw [read_reads, start_reads]⟩

/-- The error test on `response` after a read that received a line starting with `'+'`:
byte 1 is the second byte of the line or the NUL written after a one-byte line; byte 2 is
the third byte of the line, or the NUL written after a two-byte line, or, after a
one-byte line, the byte that `response[2]` held before the read. -/
theorem isErrorPattern_plus (s : KIM) (h : s.response.length = 20) (t : List Nat)
    (hr : (s.kimSerial.readBytesUntil 10 20).1 = 43 :: t) :
    (KIM_sendUART_read s).response.getD 0 0 = 43 ∧
    isErrorPattern (KIM_sendUART_read s).response
      = (t.getD 0 0 != 69 && (if t = [] then s.response.getD 2 0 else t.getD 1 0) == 82) := by
  match t, hr with
  | [], hr =>
    rw [read_response s h, hr]
    match hresp : s.response, h with
    | x0 :: x1 :: x2 :: rest, _ => simp [isErrorPattern]
  | [b], hr =>
    rw [read_response s h, hr]
    match hresp : s.response, h with
    | x0 :: x1 :: x2 :: rest, _ => simp [isErrorPattern]
  | b :: c :: t, hr =>
    obtain ⟨g0, _, _⟩ := read_getD_three s h 43 b c t hr
    rw [isErrorPattern_three s h 43 b c t hr]
    exact ⟨g0, by simp⟩

theorem toggle_Inv (s : KIM) (hI : s.Inv) : (KIM_userWakeupPinToggle s).Inv := hI

theorem flip_Inv (s : KIM) (hI : s.Inv) : (KIM_check_flip s).Inv := by
  obtain ⟨h1, h2, h3, h4⟩ := hI
  unfold KIM_check_flip
  cases hk : s.isKIM2
  · rw [hk] at h4
    simp only [Bool.false_eq_true, if_false] at h4 ⊢
    exact ⟨h1, h2, h3, by rw [h4]; rfl⟩
  · rw [hk] at h4
    simp only [if_true] at h4 ⊢
    exact ⟨h1, h2, h3, by rw [h4]; rfl⟩

theorem flip_isKIM2 (s : KIM) : (KIM_check_flip s).isKIM2 = !s.isKIM2 := by
  unfold KIM_check_flip
  cases hk : s.isKIM2 <;> simp

theorem flip_tx (s : KIM) : (KIM_check_flip s).kimSerial.tx = s.kimSerial.tx := by
  unfold KIM_check_flip
  cases hk : s.isKIM2 <;> simp

theorem exchange_Inv (s : KIM) (hI : s.Inv) : (KIM_exchange s).Inv := sendUART_Inv s hI

theorem exchange_isKIM2 (s : KIM) : (KIM_exchange s).isKIM2 = s.isKIM2 := sendUART_isKIM2 s

theorem Get_encode_Inv (s : KIM) (hI : s.Inv) (ATcmd : List Nat) (len : Nat) :
    (KIM_sendATCommandGet_encode s ATcmd len).Inv := by
  obtain ⟨h1, h2, h3, h4⟩ := hI
  exact ⟨h1, by simp [KIM_sendATCommandGet_encode, applyStores_length, h2], h3, h4⟩

theorem Get_Inv (s : KIM) (hI : s.Inv) (ATcmd : List Nat) (len : Nat) :
    (KIM_sendATCommandGet s ATcmd len).Inv :=
  exchange_Inv _ (Get_encode_Inv s hI ATcmd len)

theorem Get_isKIM2 (s : KIM) (ATcmd : List Nat) (len : Nat) :
    (KIM_sendATCommandGet s ATcmd len).isKIM2 = s.isKIM2 :=
  exchange_isKIM2 _

theorem PING_not_delayed (s : KIM) (hI : s.Inv) :
    isDelayed (KIM_sendATCommandGet_encode s PING 4).command = false := by
  unfold KIM_sendATCommandGet_encode
  simp only [Get_command s PING 4 hI rfl (by omega)]
  simp [isDelayed, PING]

theorem PING_tx (s : KIM) (hI : s.Inv) :
    (KIM_sendATCommandGet s PING 4).kimSerial.tx
      = s.kimSerial.tx ++
        [[65, 84, 43] ++ PING ++ (if s.isKIM2 = true then [61, 63, 13, 10] else [61, 63, 13])] := by
  unfold KIM_sendATCommandGet
  rw [exchange_tx, Get_cstr s PING 4 hI rfl (by omega) (by decide)]
  rfl

theorem check_first_timeout (s : KIM) (hI : s.Inv)
    (hrx : ∀ l ∈ s.kimSerial.rx.take 5, l.head? ≠ some 43) :
    (KIM_sendATCommandGet (KIM_userWakeupPinToggle s) PING 4).kimState = KIM_TIMEOUT ∧
    (KIM_sendATCommandGet (KIM_userWakeupPinToggle s) PING 4).response.getD 0 0 ≠ 43 ∧
    (KIM_sendATCommandGet (KIM_userWakeupPinToggle s) PING 4).kimSerial.rx
      = s.kimSerial.rx.drop 5 := by
  have hI0 := toggle_Inv s hI
  have hnd := PING_not_delayed _ hI0
  have hlen : (KIM_sendUART_start
      (KIM_sendATCommandGet_encode (KIM_userWakeupPinToggle s) PING 4)).response.length = 20 := by
    rw [start_response_length]; exact hI.1
  obtain ⟨a, _, c, d⟩ := loop_timeout 5 false _ hlen hrx
  unfold KIM_sendATCommandGet KIM_exchange
  rw [sendUART_not_delayed _ hnd]
  exact ⟨a, d (by omega), c⟩

theorem sendUART_decided (s : KIM) (h : (KIM_sendUART s).1 ≠ KIM_TIMEOUT) :
    (KIM_sendUART s).2.response.getD 0 0 = 43 := by
  unfold KIM_sendUART at h ⊢
  exact loop_decided _ _ _ h

theorem exchange_decided (s : KIM) (h : (KIM_exchange s).kimState ≠ KIM_TIMEOUT) :
    (KIM_exchange s).response.getD 0 0 = 43 :=
  sendUART_decided s h

theorem check_first_decided (s : KIM)
    (h : (KIM_sendATCommandGet (KIM_userWakeupPinToggle s) PING 4).kimState ≠ KIM_TIMEOUT) :
    (KIM_sendATCommandGet (KIM_userWakeupPinToggle s) PING 4).response.getD 0 0 = 43 :=
  exchange_decided _ h

theorem check_retry (s : KIM)
    (h : (KIM_sendATCommandGet (KIM_userWakeupPinToggle s) PING 4).response.getD 0 0 ≠ 43) :
    KIM_check s =
      (decide ((KIM_sendATCommandGet (KIM_check_flip
          (KIM_sendATCommandGet (KIM_userWakeupPinToggle s) PING 4)) PING 4).kimState = KIM_OK),
        KIM_sendATCommandGet (KIM_check_flip
          (KIM_sendATCommandGet (KIM_userWakeupPinToggle s) PING 4)) PING 4) := by
  unfold KIM_check KIM_getState
  simp only [h, ne_eq, not_false_eq_true, if_true]
  congr 1

theorem check_no_retry (s : KIM)
    (h : (KIM_sendATCommandGet (KIM_userWakeupPinToggle s) PING 4).response.getD 0 0 = 43) :
    KIM_check s =
      (decide ((KIM_sendATCommandGet (KIM_userWakeupPinToggle s) PING 4).kimState = KIM_OK),
        KIM_sendATCommandGet (KIM_userWakeupPinToggle s) PING 4) := by
  unfold KIM_check KIM_getState
  simp only [h, ne_eq, not_true_eq_false, if_false]
  congr 1

/-- Claim C7. `KIM_check`, dialect flip: when none of the five reads of the first PING query
returns a line starting with `'+'`, the call negates `isKIM2` once and sends a second
PING query in the other dialect; when the first PING query ends with `KIM_OK` or
`KIM_ERROR`, `isKIM2` keeps its value and only one query is sent; in every case the
call sends one query and keeps `isKIM2`, or sends two and negates it. -/
theorem check_dialect_flip (s : KIM) (hI : s.Inv) :
    ((∀ l ∈ s.kimSerial.rx.take 5, l.head? ≠ some 43) →
      (KIM_check s).2.isKIM2 = (!s.isKIM2) ∧
      (KIM_check s).2.kimSerial.tx = s.kimSerial.tx ++
        [[65, 84, 43] ++ PING ++ (if s.isKIM2 = true then [61, 63, 13, 10] else [61, 63, 13]),
         [65, 84, 43] ++ PING ++ (if s.isKIM2 = true then [61, 63, 13] else [61, 63, 13, 10])]) ∧
    (((KIM_sendATCommandGet (KIM_userWakeupPinToggle s) PING 4).kimState = KIM_OK ∨
      (KIM_sendATCommandGet (KIM_userWakeupPinToggle s) PING 4).kimState = KIM_ERROR) →
      (KIM_check s).2.isKIM2 = s.isKIM2 ∧
      (KIM_check s).2.kimSerial.tx = s.kimSerial.tx ++
        [[65, 84, 43] ++ PING ++ (if s.isKIM2 = true then [61, 63, 13, 10] else [61, 63, 13])]) ∧
    (((KIM_check s).2.isKIM2 = s.isKIM2 ∧
        (KIM_check s).2.kimSerial.tx.length = s.kimSerial.tx.length + 1) ∨
      ((KIM_check s).2.isKIM2 = (!s.isKIM2) ∧
        (KIM_check s).2.kimSerial.tx.length = s.kimSerial.tx.length + 2)) := by
  have hI0 := toggle_Inv s hI
  have htx1 := PING_tx _ hI0
  have e1 : (KIM_userWakeupPinToggle s).kimSerial.tx = s.kimSerial.tx := rfl
  have e2 : (KIM_userWakeupPinToggle s).isKIM2 = s.isKIM2 := rfl
  rw [e1, e2] at htx1
  have hI1 := Get_Inv _ hI0 PING 4
  have hk1 : (KIM_sendATCommandGet (KIM_userWakeupPinToggle s) PING 4).isKIM2 = s.isKIM2 :=
    Get_isKIM2 _ _ _
  have htx2 := PING_tx _ (flip_Inv _ hI1)
  rw [flip_tx, htx1, flip_isKIM2, hk1] at htx2
  have hk2 : (KIM_sendATCommandGet (KIM_check_flip
      (KIM_sendATCommandGet (KIM_userWakeupPinToggle s) PING 4)) PING 4).isKIM2
        = (!s.isKIM2) := by
    rw [Get_isKIM2, flip_isKIM2, hk1]
  have retry : (KIM_sendATCommandGet (KIM_userWakeupPinToggle s) PING 4).response.getD 0 0 ≠ 43 →
      (KIM_check s).2.isKIM2 = (!s.isKIM2) ∧
      (KIM_check s).2.kimSerial.tx = s.kimSerial.tx ++
        [[65, 84, 43] ++ PING ++ (if s.isKIM2 = true then [61, 63, 13, 10] else [61, 63, 13]),
         [65, 84, 43] ++ PING ++ (if s.isKIM2 = true then [61, 63, 13] else [61, 63, 13, 10])] := by
    intro h
    rw [check_retry s h]
    refine ⟨hk2, ?_⟩
    show (KIM_sendATCommandGet (KIM_check_flip
      (KIM_sendATCommandGet (KIM_userWakeupPinToggle s) PING 4)) PING 4).kimSerial.tx = _
    rw [htx2]
    cases s.isKIM2 <;> simp
  have noretry : (KIM_sendATCommandGet (KIM_userWakeupPinToggle s) PING 4).response.getD 0 0 = 43 →
      (KIM_check s).2.isKIM2 = s.isKIM2 ∧
      (KIM_check s).2.kimSerial.tx = s.kimSerial.tx ++
        [[65, 84, 43] ++ PING ++ (if s.isKIM2 = true then [61, 63, 13, 10] else [61, 63, 13])] := by
    intro h
    rw [check_no_retry s h]
    exact ⟨hk1, htx1⟩
  refine ⟨fun hrx => retry (check_first_timeout s hI hrx).2.1, ?_, ?_⟩
  · intro h
    apply noretry
    apply check_first_decided
    rcases h with h | h <;> rw [h] <;> decide
  · by_cases h : (KIM_sendATCommandGet (KIM_userWakeupPinToggle s) PING 4).response.getD 0 0 = 43
    · left
      obtain ⟨a, b⟩ := noretry h
      exact ⟨a, by rw [b]; simp⟩
    · right
      obtain ⟨a, b⟩ := retry h
      exact ⟨a, by rw [b]; simp⟩

theorem readBytesUntil_plusOK (u : SerialUART) (t : List Nat) (rest : List (List Nat))
    (h : u.rx = (43 :: 79 :: 75 :: t) :: rest) :
    (u.readBytesUntil 10 20).1
      = 43 :: 79 :: 75 :: (t.takeWhile (fun b => b != 10)).take 17 := by
  rw [readBytesUntil_cons u _ rest h]
  simp [List.takeWhile_cons]

theorem flip_rx (s : KIM) : (KIM_check_flip s).kimSerial.rx = s.kimSerial.rx := by
  unfold KIM_check_flip
  cases hk : s.isKIM2 <;> simp

theorem Get_encode_rx (s : KIM) (ATcmd : List Nat) (len : Nat) :
    (KIM_sendATCommandGet_encode s ATcmd len).kimSerial.rx = s.kimSerial.rx := by
  unfold KIM_sendATCommandGet_encode
  rfl

theorem Get_kimState (s : KIM) (ATcmd : List Nat) (len : Nat) :
    (KIM_sendATCommandGet s ATcmd len).kimState
      = (KIM_sendUART (KIM_sendATCommandGet_encode s ATcmd len)).1 := by
  unfold KIM_sendATCommandGet KIM_exchange
  rfl

theorem lastExchange_check (s : KIM) :
    Call.lastExchange s Call.check
      = if (KIM_sendATCommandGet (KIM_userWakeupPinToggle s) PING 4).response.getD 0 0 ≠ 43
        then some (KIM_sendATCommandGet (KIM_check_flip
          (KIM_sendATCommandGet (KIM_userWakeupPinToggle s) PING 4)) PING 4).kimState
        else some (KIM_sendATCommandGet (KIM_userWakeupPinToggle s) PING 4).kimState := by
  rw [Get_kimState, Get_kimState]
  unfold Call.lastExchange
  rfl

/-- Claim C8. `KIM_check`, result: the call returns true exactly when the last PING exchange
it ran (the retry when one was made, the first query otherwise) returned `KIM_OK`; in
particular it returns true, with the dialect switched, when the five reads of the first
query see no line starting with `'+'` and the first read of the retry returns a line
starting with `"+OK"`. -/
theorem check_result (s : KIM) :
    ((KIM_check s).1 = true ↔ Call.lastExchange s Call.check = some KIM_OK) ∧
    (s.Inv → ∀ (pre : List (List Nat)) (t : List Nat) (rest : List (List Nat)),
      s.kimSerial.rx = pre ++ (43 :: 79 :: 75 :: t) :: rest → pre.length = 5 →
      (∀ l ∈ pre, l.head? ≠ some 43) →
      (KIM_check s).1 = true ∧ (KIM_check s).2.isKIM2 = (!s.isKIM2)) := by
  constructor
  · rw [lastExchange_check]
    by_cases h : (KIM_sendATCommandGet (KIM_userWakeupPinToggle s) PING 4).response.getD 0 0 = 43
    · rw [check_no_retry s h]
      simp only [h, ne_eq, not_true_eq_false, if_false, Option.some.injEq, decide_eq_true_eq]
    · rw [check_retry s h]
      simp only [h, ne_eq, not_false_eq_true, if_true, Option.some.injEq, decide_eq_true_eq]
  · intro hI pre t rest hrx hpre hplus
    have e2 : (KIM_userWakeupPinToggle s).isKIM2 = s.isKIM2 := rfl
    have htake : s.kimSerial.rx.take 5 = pre := by
      rw [hrx, ← hpre]; simp
    have hdrop : s.kimSerial.rx.drop 5 = (43 :: 79 :: 75 :: t) :: rest := by
      rw [hrx, ← hpre]; simp
    obtain ⟨_, h0, hrx1⟩ := check_first_timeout s hI (by rw [htake]; exact hplus)
    rw [hdrop] at hrx1
    have hI1 := Get_Inv _ (toggle_Inv s hI) PING 4
    have hI2 := Get_encode_Inv _ (flip_Inv _ hI1) PING 4
    have hnd := PING_not_delayed _ (flip_Inv _ hI1)
    have hrx2 : (KIM_sendATCommandGet_encode (KIM_check_flip
        (KIM_sendATCommandGet (KIM_userWakeupPinToggle s) PING 4)) PING 4).kimSerial.rx
          = (43 :: 79 :: 75 :: t) :: rest := by
      rw [← hrx1, Get_encode_rx, flip_rx]
    have hok : (KIM_sendUART (KIM_sendATCommandGet_encode (KIM_check_flip
        (KIM_sendATCommandGet (KIM_userWakeupPinToggle s) PING 4)) PING 4)).1 = KIM_OK := by
      rw [sendUART_not_delayed _ hnd,
        loop_plusOK 4 _ _ (by rw [start_response_length]; exact hI2.1)
          ((start_first_read _).trans (readBytesUntil_plusOK _ t rest hrx2))]
    rw [check_retry s h0]
    refine ⟨?_, ?_⟩
    · simp only [Get_kimState, hok, decide_True]
    · simp only [Get_isKIM2, flip_isKIM2, e2]

theorem exchange_kimState (s : KIM) : (KIM_exchange s).kimState = (KIM_sendUART s).1 := by
  unfold KIM_exchange
  rfl

theorem powerON_kimState (s : KIM) (b : Bool) : (KIM_powerON s b).kimState = s.kimState := by
  unfold KIM_powerON
  cases b <;> rfl

/-- After a call, `kimState` is the status returned by the last run of `KIM_sendUART`
inside the call, and it keeps its value when the call runs none. -/
theorem call_kimState (s : KIM) (c : Call) :
    (s.call c).kimState = (c.lastExchange s).getD s.kimState := by
  cases c with
  | sendATCommandGet ATcmd len =>
    simp only [KIM.call, Call.lastExchange, Option.getD_some, KIM_sendATCommandGet,
      exchange_kimState]
  | sendATCommandSet ATcmd len v vl =>
    simp only [KIM.call, Call.lastExchange, Option.getD_some, KIM_sendATCommandSet,
      exchange_kimState]
  | sendUARTRaw RAWcmd len =>
    simp only [KIM.call, Call.lastExchange, Option.getD_some, KIM_sendUARTRaw,
      exchange_kimState]
  | check =>
    rw [lastExchange_check]
    simp only [KIM.call]
    by_cases h : (KIM_sendATCommandGet (KIM_userWakeupPinToggle s) PING 4).response.getD 0 0 = 43
    · rw [check_no_retry s h]
      simp only [h, ne_eq, not_true_eq_false, if_false, Option.getD_some]
    · rw [check_retry s h]
      simp only [h, ne_eq, not_false_eq_true, if_true, Option.getD_some]
  | getState => rfl
  | isKIM2 => rfl
  | powerON b => exact powerON_kimState s b
  | userWakeupPinToggle => rfl

theorem lastExchange_ne_UNKNOWN (s : KIM) (c : Call) (o : retStatusKIM_t)
    (h : c.lastExchange s = some o) : o ≠ UNKNOWN := by
  cases c with
  | sendATCommandGet ATcmd len =>
    simp only [Call.lastExchange, Option.some.injEq] at h
    rw [← h]; exact sendUART_ne_UNKNOWN _
  | sendATCommandSet ATcmd len v vl =>
    simp only [Call.lastExchange, Option.some.injEq] at h
    rw [← h]; exact sendUART_ne_UNKNOWN _
  | sendUARTRaw RAWcmd len =>
    simp only [Call.lastExchange, Option.some.injEq] at h
    rw [← h]; exact sendUART_ne_UNKNOWN _
  | check =>
    simp only [Call.lastExchange] at h
    split at h
    · simp only [Option.some.injEq] at h
      rw [← h]; exact sendUART_ne_UNKNOWN _
    · simp only [Option.some.injEq] at h
      rw [← h]; exact sendUART_ne_UNKNOWN _
  | getState => simp [Call.lastExchange] at h
  | isKIM2 => simp [Call.lastExchange] at h
  | powerON b => simp [Call.lastExchange] at h
  | userWakeupPinToggle => simp [Call.lastExchange] at h

theorem lastExchange_isSome (s : KIM) (c : Call) (h : c.exchanges = true) :
    ∃ o, c.lastExchange s = some o := by
  cases c with
  | sendATCommandGet ATcmd len => exact ⟨_, rfl⟩
  | sendATCommandSet ATcmd len v vl => exact ⟨_, rfl⟩
  | sendUARTRaw RAWcmd len => exact ⟨_, rfl⟩
  | check =>
    rw [lastExchange_check]
    split
    · exact ⟨_, rfl⟩
    · exact ⟨_, rfl⟩
  | getState => simp [Call.exchanges] at h
  | isKIM2 => simp [Call.exchanges] at h
  | powerON b => simp [Call.exchanges] at h
  | userWakeupPinToggle => simp [Call.exchanges] at h

theorem lastExchange_none (s : KIM) (c : Call) (h : c.exchanges = false) :
    c.lastExchange s = none := by
  cases c with
  | sendATCommandGet ATcmd len => simp [Call.exchanges] at h
  | sendATCommandSet ATcmd len v vl => simp [Call.exchanges] at h
  | sendUARTRaw RAWcmd len => simp [Call.exchanges] at h
  | check => simp [Call.exchanges] at h
  | getState => rfl
  | isKIM2 => rfl
  | powerON b => rfl
  | userWakeupPinToggle => rfl

theorem run_cons (s : KIM) (c : Call) (calls : List Call) :
    s.run (c :: calls) = (s.call c).run calls := rfl

theorem run_kimState (calls : List Call) : ∀ (s : KIM),
    (s.run calls).kimState = mostRecentExchange s s.kimState calls := by
  induction calls with
  | nil => intro s; rfl
  | cons c calls ih =>
    intro s
    rw [run_cons, ih, mostRecentExchange, call_kimState]

theorem run_ne_UNKNOWN (calls : List Call) : ∀ (s : KIM),
    (s.kimState ≠ UNKNOWN ∨ ∃ c ∈ calls, c.exchanges = true) →
    (s.run calls).kimState ≠ UNKNOWN := by
  induction calls with
  | nil =>
    intro s h
    rcases h with h | ⟨c, hc, _⟩
    · exact h
    · simp at hc
  | cons c calls ih =>
    intro s h
    rw [run_cons]
    apply ih
    cases hx : c.exchanges
    · rcases h with h | ⟨c', hc', hx'⟩
      · left
        rw [call_kimState, lastExchange_none s c hx]
        exact h
      · rcases List.mem_cons.mp hc' with rfl | hmem
        · rw [hx] at hx'; cases hx'
        · exact Or.inr ⟨c', hmem, hx'⟩
    · left
      obtain ⟨o, ho⟩ := lastExchange_isSome s c hx
      rw [call_kimState, ho]
      exact lastExchange_ne_UNKNOWN s c o ho

/-- Claim C9. Last-state accessor: `KIM_getState` returns `UNKNOWN` on a freshly constructed
object; after any sequence of calls it returns the status returned by the most recent
run of `KIM_sendUART`, which is never `UNKNOWN` once a sender or `KIM_check` was called;
a call that runs no exchange (`KIM_getState`, `KIM_isKIM2`, `KIM_powerON`, the wake-up
toggle) leaves it as it was. -/
theorem getState_most_recent (device : SerialUART) (response0 command0 : List Nat)
    (calls : List Call) :
    KIM_getState (KIM.new device response0 command0) = UNKNOWN ∧
    KIM_getState ((KIM.new device response0 command0).run calls)
      = mostRecentExchange (KIM.new device response0 command0) UNKNOWN calls ∧
    ((∃ c ∈ calls, c.exchanges = true) →
      KIM_getState ((KIM.new device response0 command0).run calls) ≠ UNKNOWN) ∧
    (∀ (s : KIM) (c : Call), c.exchanges = false →
      KIM_getState (s.call c) = KIM_getState s) := by
  refine ⟨rfl, run_kimState calls _, fun h => run_ne_UNKNOWN calls _ (Or.inr h), ?_⟩
  intro s c hx
  unfold KIM_getState
  rw [call_kimState, lastExchange_none s c hx]
  rfl

/-- Claim C10. Response buffer bound, evaluated on a 25-byte line: `readBytesUntil` hands
over 20 data bytes, the stores of the read put data at the indices 0 to 19 and the NUL
at index 20, one past the last index of the 20-byte array `response`. -/
theorem response_terminator_index :
    (((sampleUART [List.replicate 25 65]).readBytesUntil 10 20).1).length = 20 ∧
    (KIM_sendUART_readStores ((sampleUART [List.replicate 25 65]).readBytesUntil 10 20).1).map
        Prod.fst = (List.range 21).map Int.ofNat ∧
    (KIM_sendUART_readStores
        ((sampleUART [List.replicate 25 65]).readBytesUntil 10 20).1).getLast? = some (20, 0) ∧
    (sampleKIM [List.replicate 25 65]).response.length = 20 := by
  decide

/-- Claim C1 as stated fails in the dialect reached by `KIM_check` on a silent device
(`isKIM2` false): the set command for `"PWR"` and `"500"` is sent as
`"AT+PWR=500\r"`, not as `"AT+PWR=500\r\n"`. -/
theorem sendATCommandSet_frame_counterexample :
    (KIM_check (sampleKIM [])).2.Inv ∧
    (KIM_check (sampleKIM [])).2.isKIM2 = false ∧
    (KIM_sendATCommandSet (KIM_check (sampleKIM [])).2 [80, 87, 82] 3 [53, 48, 48]
        3).kimSerial.tx.getLast?
      = some ([65, 84, 43] ++ [80, 87, 82] ++ [61] ++ [53, 48, 48] ++ [13]) ∧
    ¬ ((KIM_sendATCommandSet (KIM_check (sampleKIM [])).2 [80, 87, 82] 3 [53, 48, 48]
        3).kimSerial.tx
      = (KIM_check (sampleKIM [])).2.kimSerial.tx ++
        [[65, 84, 43] ++ [80, 87, 82] ++ [61] ++ [53, 48, 48] ++ [13, 10]]) := by
  decide

/-- Claim C1 (amended), at the verb `"PWR"` and the value `"500"` on a fresh object. -/
theorem sendATCommandSet_frame_witness :
    (sampleKIM [[43, 79, 75, 13]]).Inv ∧
    (KIM_sendATCommandSet (sampleKIM [[43, 79, 75, 13]]) [80, 87, 82] 3 [53, 48, 48]
        3).kimSerial.tx
      = (sampleKIM [[43, 79, 75, 13]]).kimSerial.tx ++
        [[65, 84, 43] ++ [80, 87, 82] ++ [61] ++ [53, 48, 48] ++
          (if (sampleKIM [[43, 79, 75, 13]]).isKIM2 = true then [13, 10] else [13])] :=
  ⟨by decide,
    sendATCommandSet_frame (sampleKIM [[43, 79, 75, 13]]) [80, 87, 82] 3 [53, 48, 48] 3
      (by decide) rfl rfl (by decide) (by decide) (by decide)⟩

/-- Claim C2, at the verb `"ID"` on a fresh object. -/
theorem sendATCommandGet_frame_witness :
    (sampleKIM [[43, 79, 75, 13]]).Inv ∧
    (KIM_sendATCommandGet (sampleKIM [[43, 79, 75, 13]]) [73, 68] 2).kimSerial.tx
      = (sampleKIM [[43, 79, 75, 13]]).kimSerial.tx ++
        [[65, 84, 43] ++ [73, 68] ++
          (if (sampleKIM [[43, 79, 75, 13]]).isKIM2 = true then [61, 63, 13, 10]
            else [61, 63, 13])] :=
  ⟨by decide,
    sendATCommandGet_frame (sampleKIM [[43, 79, 75, 13]]) [73, 68] 2
      (by decide) rfl (by decide) (by decide)⟩

/-- Claim C3, evaluated on the reply `"+ERROR\r"`: the query `"AT+ID=?"` ends with
`KIM_OK` after one read, and the delayed command `"AT+TX=00"` takes the line as its
precursor and ends with `KIM_TIMEOUT` after ten reads; neither returns `KIM_ERROR`. -/
theorem sendUART_plusERROR_reply :
    (KIM_sendATCommandGet (sampleKIM [[43, 69, 82, 82, 79, 82, 13]]) [73, 68] 2).kimState
      = KIM_OK ∧
    (KIM_sendATCommandGet (sampleKIM [[43, 69, 82, 82, 79, 82, 13]]) [73, 68]
      2).kimSerial.reads = 1 ∧
    (KIM_sendUART (sampleKIMWith [[43, 69, 82, 82, 79, 82, 13]] sampleTX)).1 = KIM_TIMEOUT ∧
    (KIM_sendUART (sampleKIMWith [[43, 69, 82, 82, 79, 82, 13]] sampleTX)).2.kimSerial.reads
      = 10 := by
  decide

/-- Claim C4, at the reply `"+OK\r"` to the query `"AT+ID=?"`, with more lines pending. -/
theorem sendUART_ok_first_read_witness :
    (sampleKIMWith [[43, 79, 75, 13], [43, 69, 82]] sampleID).Inv ∧
    isDelayed (sampleKIMWith [[43, 79, 75, 13], [43, 69, 82]] sampleID).command = false ∧
    ((KIM_sendUART (sampleKIMWith [[43, 79, 75, 13], [43, 69, 82]] sampleID)).1 = KIM_OK ∧
      (KIM_sendUART (sampleKIMWith [[43, 79, 75, 13], [43, 69, 82]] sampleID)).2.kimSerial.reads
        = (sampleKIMWith [[43, 79, 75, 13], [43, 69, 82]] sampleID).kimSerial.reads + 1 ∧
      (KIM_sendUART (sampleKIMWith [[43, 79, 75, 13], [43, 69, 82]] sampleID)).2.kimSerial.rx
        = (sampleKIMWith [[43, 79, 75, 13], [43, 69, 82]] sampleID).kimSerial.rx.tail) :=
  ⟨by decide, by decide,
    sendUART_ok_first_read (sampleKIMWith [[43, 79, 75, 13], [43, 69, 82]] sampleID) [13]
      (by decide) (by decide) (by decide)⟩

/-- Claim C7, on a silent device (the dialect is switched and two queries are sent) and
on a device that answers `"+OK\r"` (the dialect is kept and one query is sent). -/
theorem check_dialect_flip_witness :
    (sampleKIM []).Inv ∧ (sampleKIM [[43, 79, 75, 13]]).Inv ∧
    ((KIM_check (sampleKIM [])).2.isKIM2 = (!(sampleKIM []).isKIM2) ∧
      (KIM_check (sampleKIM [])).2.kimSerial.tx = (sampleKIM []).kimSerial.tx ++
        [[65, 84, 43] ++ PING ++
            (if (sampleKIM []).isKIM2 = true then [61, 63, 13, 10] else [61, 63, 13]),
         [65, 84, 43] ++ PING ++
            (if (sampleKIM []).isKIM2 = true then [61, 63, 13] else [61, 63, 13, 10])]) ∧
    ((KIM_check (sampleKIM [[43, 79, 75, 13]])).2.isKIM2 = (sampleKIM [[43, 79, 75, 13]]).isKIM2 ∧
      (KIM_check (sampleKIM [[43, 79, 75, 13]])).2.kimSerial.tx
        = (sampleKIM [[43, 79, 75, 13]]).kimSerial.tx ++
          [[65, 84, 43] ++ PING ++
            (if (sampleKIM [[43, 79, 75, 13]]).isKIM2 = true then [61, 63, 13, 10]
              else [61, 63, 13])]) :=
  ⟨by decide, by decide,
    (check_dialect_flip (sampleKIM []) (by decide)).1 (by decide),
    (check_dialect_flip (sampleKIM [[43, 79, 75, 13]]) (by decide)).2.1 (Or.inl (by decide))⟩

/-- Claim C8, on a device that is silent for five reads and then answers `"+OK\r"`. -/
theorem check_result_witness :
    (sampleKIM [[], [], [], [], [], [43, 79, 75, 13]]).Inv ∧
    ((KIM_check (sampleKIM [[], [], [], [], [], [43, 79, 75, 13]])).1 = true ∧
      (KIM_check (sampleKIM [[], [], [], [], [], [43, 79, 75, 13]])).2.isKIM2
        = (!(sampleKIM [[], [], [], [], [], [43, 79, 75, 13]]).isKIM2)) :=
  ⟨by decide,
    (check_result (sampleKIM [[], [], [], [], [], [43, 79, 75, 13]])).2 (by decide)
      [[], [], [], [], []] [13] [] rfl rfl (by decide)⟩

/-! Index bounds of the encoders, the raw encoder, the classification of lines, the
returned text, the dialect frame and the hexadecimal text. -/

theorem mem_copyStores (off : Int) (n : Nat) (src : Nat → Nat) (w : Int × Nat) :
    w ∈ copyStores off n src ↔ ∃ i, i < n ∧ w = ((i : Int) + off, src i) := by
  simp only [copyStores, List.mem_map, List.mem_range]
  constructor
  · rintro ⟨i, hi, rfl⟩; exact ⟨i, hi, rfl⟩
  · rintro ⟨i, hi, rfl⟩; exact ⟨i, hi, rfl⟩

/-- Every store of `KIM_sendATCommandGet` has an index from 0 to `len + 7`. -/
theorem Get_stores_index (s : KIM) (ATcmd : List Nat) (len : Nat) (w : Int × Nat)
    (hw : w ∈ KIM_sendATCommandGet_stores s ATcmd len) :
    0 ≤ w.1 ∧ w.1 ≤ ((len % 256 : Nat) : Int) + 7 := by
  simp only [KIM_sendATCommandGet_stores, List.mem_append, mem_copyStores] at hw
  rcases hw with (⟨i, hi, rfl⟩ | ⟨i, hi, rfl⟩) | ⟨i, hi, rfl⟩ <;> simp only <;> omega

/-- The last store of `KIM_sendATCommandGet` has index `len + 7`. -/
theorem Get_stores_top (s : KIM) (ATcmd : List Nat) (len : Nat) :
    (((len % 256 : Nat) : Int) + 7, s.AT_REQUEST.getD 4 0)
      ∈ KIM_sendATCommandGet_stores s ATcmd len := by
  simp only [KIM_sendATCommandGet_stores, List.mem_append, mem_copyStores]
  right
  exact ⟨4, by omega, by simp only [Prod.mk.injEq, and_true]; omega⟩

/-- Every store of `KIM_sendATCommandSet` has an index from 0 to `len + valueLen + 6`. -/
theorem Set_stores_index (s : KIM) (ATcmd : List Nat) (len : Nat) (ATcmdValue : List Nat)
    (valueLen : Nat) (w : Int × Nat)
    (hw : w ∈ KIM_sendATCommandSet_stores s ATcmd len ATcmdValue valueLen) :
    0 ≤ w.1 ∧ w.1 ≤ ((len % 256 : Nat) : Int) + ((valueLen % 256 : Nat) : Int) + 6 := by
  simp only [KIM_sendATCommandSet_stores, List.mem_append, mem_copyStores,
    List.mem_singleton] at hw
  rcases hw with (((⟨i, hi, rfl⟩ | ⟨i, hi, rfl⟩) | rfl) | ⟨i, hi, rfl⟩) | ⟨i, hi, rfl⟩ <;>
    simp only <;> omega

/-- The last store of `KIM_sendATCommandSet` has index `len + valueLen + 6`. -/
theorem Set_stores_top (s : KIM) (ATcmd : List Nat) (len : Nat) (ATcmdValue : List Nat)
    (valueLen : Nat) :
    (((len % 256 : Nat) : Int) + ((valueLen % 256 : Nat) : Int) + 6, s.AT_REQUEST.getD 4 0)
      ∈ KIM_sendATCommandSet_stores s ATcmd len ATcmdValue valueLen := by
  simp only [KIM_sendATCommandSet_stores, List.mem_append, mem_copyStores]
  right
  exact ⟨2, by omega, by simp only [Prod.mk.injEq, and_true]; omega⟩

/-- Every store of `KIM_sendUARTRaw` has an index from `min 0 (len - 3)` to `len - 1`. -/
theorem Raw_stores_index (RAWcmd : List Nat) (len : Nat) (w : Int × Nat)
    (hw : w ∈ KIM_sendUARTRaw_stores RAWcmd len) :
    (0 ≤ w.1 ∨ ((len % 256 : Nat) : Int) - 3 ≤ w.1) ∧ w.1 ≤ ((len % 256 : Nat) : Int) - 1 := by
  simp only [KIM_sendUARTRaw_stores, List.mem_append, mem_copyStores, List.mem_cons,
    List.mem_singleton, List.not_mem_nil, or_false] at hw
  rcases hw with ⟨i, hi, rfl⟩ | rfl | rfl | rfl <;> simp only <;> omega

theorem Raw_stores_first (RAWcmd : List Nat) (len : Nat) :
    (((len % 256 : Nat) : Int) - 3, 13) ∈ KIM_sendUARTRaw_stores RAWcmd len := by
  simp [KIM_sendUARTRaw_stores]

theorem Raw_stores_top (RAWcmd : List Nat) (len : Nat) :
    (((len % 256 : Nat) : Int) - 1, 0) ∈ KIM_sendUARTRaw_stores RAWcmd len := by
  simp [KIM_sendUARTRaw_stores]

theorem exchange_tx_length (s : KIM) :
    (KIM_exchange s).kimSerial.tx.length = s.kimSerial.tx.length + 1 := by
  rw [exchange_tx]; simp

/-- Claim C11 (amended). Command buffer capacity: for a query verb with `len ≤ 62` and
for a verb and a value with `len + valueLen ≤ 63`, every store of
`KIM_sendATCommandGet` and of `KIM_sendATCommandSet` has an index from 0 to 69; the
encoders do not check their lengths, and for any lengths the command is built and
printed. -/
theorem encoders_within_capacity (s : KIM) (ATcmd : List Nat) (len : Nat)
    (ATcmdValue : List Nat) (valueLen : Nat) :
    (len % 256 ≤ 62 →
      ∀ w ∈ KIM_sendATCommandGet_stores s ATcmd len, 0 ≤ w.1 ∧ w.1 < 70) ∧
    (len % 256 + valueLen % 256 ≤ 63 →
      ∀ w ∈ KIM_sendATCommandSet_stores s ATcmd len ATcmdValue valueLen, 0 ≤ w.1 ∧ w.1 < 70) ∧
    (KIM_sendATCommandGet s ATcmd len).kimSerial.tx.length = s.kimSerial.tx.length + 1 ∧
    (KIM_sendATCommandSet s ATcmd len ATcmdValue valueLen).kimSerial.tx.length
      = s.kimSerial.tx.length + 1 := by
  refine ⟨?_, ?_, ?_, ?_⟩
  · intro h w hw
    have := Get_stores_index s ATcmd len w hw
    omega
  · intro h w hw
    have := Set_stores_index s ATcmd len ATcmdValue valueLen w hw
    omega
  · unfold KIM_sendATCommandGet
    rw [exchange_tx_length]
    rfl
  · unfold KIM_sendATCommandSet
    rw [exchange_tx_length]
    rfl

/-- Claim C20. Exact in-bounds conditions: for `uint8_t` lengths, all stores into the
70-byte array `command` have an index from 0 to 69 exactly when `len ≤ 62` for
`KIM_sendATCommandGet` (highest index `len + 7`), exactly when `len + valueLen ≤ 63`
for `KIM_sendATCommandSet` (highest index `len + valueLen + 6`), and exactly when
`3 ≤ len ≤ 70` for `KIM_sendUARTRaw`, whose first tail store is at the negative index
`len - 3` when `len < 3`; the indices are not reduced modulo 256. -/
theorem encoders_in_bounds_iff (s : KIM) (ATcmd ATcmdValue RAWcmd : List Nat)
    (len valueLen : Nat) (hl : len < 256) (hv : valueLen < 256) :
    ((∀ w ∈ KIM_sendATCommandGet_stores s ATcmd len, 0 ≤ w.1 ∧ w.1 ≤ 69) ↔ len ≤ 62) ∧
    (((len : Int) + 7, s.AT_REQUEST.getD 4 0) ∈ KIM_sendATCommandGet_stores s ATcmd len ∧
      ∀ w ∈ KIM_sendATCommandGet_stores s ATcmd len, w.1 ≤ (len : Int) + 7) ∧
    ((∀ w ∈ KIM_sendATCommandSet_stores s ATcmd len ATcmdValue valueLen,
        0 ≤ w.1 ∧ w.1 ≤ 69) ↔ len + valueLen ≤ 63) ∧
    (((len : Int) + (valueLen : Int) + 6, s.AT_REQUEST.getD 4 0)
        ∈ KIM_sendATCommandSet_stores s ATcmd len ATcmdValue valueLen ∧
      ∀ w ∈ KIM_sendATCommandSet_stores s ATcmd len ATcmdValue valueLen,
        w.1 ≤ (len : Int) + (valueLen : Int) + 6) ∧
    ((∀ w ∈ KIM_sendUARTRaw_stores RAWcmd len, 0 ≤ w.1 ∧ w.1 ≤ 69) ↔ 3 ≤ len ∧ len ≤ 70) ∧
    (((len : Int) - 3, 13) ∈ KIM_sendUARTRaw_stores RAWcmd len ∧
      ((len : Int) - 1, 0) ∈ KIM_sendUARTRaw_stores RAWcmd len ∧
      ∀ w ∈ KIM_sendUARTRaw_stores RAWcmd len, w.1 ≤ (len : Int) - 1) := by
  have hm : len % 256 = len := Nat.mod_eq_of_lt hl
  have hvm : valueLen % 256 = valueLen := Nat.mod_eq_of_lt hv
  have gtop := Get_stores_top s ATcmd len
  have stop := Set_stores_top s ATcmd len ATcmdValue valueLen
  have rfirst := Raw_stores_first RAWcmd len
  have rtop := Raw_stores_top RAWcmd len
  rw [hm] at gtop rfirst rtop
  rw [hm, hvm] at stop
  refine ⟨⟨?_, ?_⟩, ⟨gtop, ?_⟩, ⟨?_, ?_⟩, ⟨stop, ?_⟩, ⟨?_, ?_⟩, rfirst, rtop, ?_⟩
  · intro h
    have := (h _ gtop).2
    simp only at this
    omega
  · intro h w hw
    have := Get_stores_index s ATcmd len w hw
    rw [hm] at this
    omega
  · intro w hw
    have := Get_stores_index s ATcmd len w hw
    rw [hm] at this
    exact this.2
  · intro h
    have := (h _ stop).2
    simp only at this
    omega
  · intro h w hw
    have := Set_stores_index s ATcmd len ATcmdValue valueLen w hw
    rw [hm, hvm] at this
    omega
  · intro w hw
    have := Set_stores_index s ATcmd len ATcmdValue valueLen w hw
    rw [hm, hvm] at this
    exact this.2
  · intro h
    have h1 := (h _ rfirst).1
    have h2 := (h _ rtop).2
    simp only at h1 h2
    omega
  · intro h w hw
    have := Raw_stores_index RAWcmd len w hw
    rw [hm] at this
    omega
  · intro w hw
    have := Raw_stores_index RAWcmd len w hw
    rw [hm] at this
    exact this.2

theorem tail_stores (k : Nat) (a b c : Nat) :
    [(((k : Int)), a), ((k : Int) + 1, b), ((k : Int) + 2, c)]
      = copyStores (k : Int) 3 (fun i => [a, b, c].getD i 0) := by
  simp [copyStores, List.range_succ]
  omega

/-- The content of `command` after the stores of `KIM_sendUARTRaw`, for `3 ≤ len ≤ 70`. -/
theorem Raw_command (s : KIM) (RAWcmd : List Nat) (len : Nat) (hc : s.command.length = 70)
    (h3 : 3 ≤ len) (h70 : len ≤ 70) :
    applyStores s.command (KIM_sendUARTRaw_stores RAWcmd len)
      = (List.range (len - 3)).map (fun i => RAWcmd.getD i 0) ++ [13, 10, 0]
          ++ s.command.drop len := by
  have hm : len % 256 = len := Nat.mod_eq_of_lt (by omega)
  obtain ⟨k, rfl⟩ : ∃ k, len = k + 3 := ⟨len - 3, by omega⟩
  obtain ⟨p0, p1, p2, hB, hp0, hp1, hp2⟩ := split3 s.command k 3 0 (by omega)
  have hp2' : p2 = [] := List.length_eq_zero.mp hp2
  subst hp2'
  have hd : k + 3 + 0 = k + 3 := rfl
  rw [hd] at hB
  generalize s.command.drop (k + 3) = post at hB ⊢
  have e1 : (((k + 3 : Nat) : Int) - 3).toNat = k := by omega
  have e2 : [((((k + 3 : Nat) : Int)) - 3, 13), ((((k + 3 : Nat) : Int)) - 2, 10),
      ((((k + 3 : Nat) : Int)) - 1, 0)]
      = copyStores (k : Int) 3 (fun i => [13, 10, 0].getD i 0) := by
    rw [← tail_stores]
    simp only [List.cons.injEq, Prod.mk.injEq, and_true]
    omega
  unfold KIM_sendUARTRaw_stores
  rw [hm, e1, e2, applyStores_append, hB]
  have s1 := applyStores_copyStores_at 0 k (fun i => RAWcmd.getD i 0) [] p0 (p1 ++ [] ++ post)
    rfl hp0
  have s2 := applyStores_copyStores_at (k : Int) 3 (fun i => [13, 10, 0].getD i 0)
    ((List.range k).map (fun i => RAWcmd.getD i 0)) p1 post (by simp) hp1
  have e3 : (List.range 3).map (fun i => [13, 10, 0].getD i 0) = [13, 10, 0] := rfl
  rw [e3] at s2
  simp only [List.append_assoc, List.nil_append, List.append_nil, Nat.add_sub_cancel]
    at s1 s2 ⊢
  rw [s1, s2]


theorem map_getD_range_take (l : List Nat) (n : Nat) (h : n ≤ l.length) :
    (List.range n).map (fun i => l.getD i 0) = l.take n := by
  apply List.ext_getElem?
  intro i
  by_cases hi : i < n
  · have hil : i < l.length := by omega
    simp [List.getElem?_map, List.getElem?_range, hi, List.getElem?_take, hil]
  · simp [List.getElem?_map, hi, List.getElem?_take]
    omega

/-- Claim C12. `KIM_sendUARTRaw`: for `3 ≤ len ≤ 70`, after the encoding `command[i]` is
`RAWcmd[i]` for `i < len - 3`, the bytes at `len - 3`, `len - 2`, `len - 1` are `'\r'`,
`'\n'`, NUL, and the bytes from index `len` on are unchanged; a buffer of `len` bytes
that already ends with `"\r\n\0"` is therefore copied into the first `len` bytes as it
is.  The C string in that buffer is what the call prints. -/
theorem sendUARTRaw_command (s : KIM) (RAWcmd : List Nat) (len : Nat) (hI : s.Inv)
    (h3 : 3 ≤ len) (h70 : len ≤ 70) :
    (∀ i, i < len - 3 →
      (KIM_sendUARTRaw_encode s RAWcmd len).command[i]? = some (RAWcmd.getD i 0)) ∧
    (KIM_sendUARTRaw_encode s RAWcmd len).command[len - 3]? = some 13 ∧
    (KIM_sendUARTRaw_encode s RAWcmd len).command[len - 2]? = some 10 ∧
    (KIM_sendUARTRaw_encode s RAWcmd len).command[len - 1]? = some 0 ∧
    (KIM_sendUARTRaw_encode s RAWcmd len).command.drop len = s.command.drop len ∧
    (KIM_sendUARTRaw_encode s RAWcmd len).command.length = 70 ∧
    (RAWcmd.length = len → RAWcmd.drop (len - 3) = [13, 10, 0] →
      (KIM_sendUARTRaw_encode s RAWcmd len).command.take len = RAWcmd) ∧
    (KIM_sendUARTRaw s RAWcmd len).kimSerial.tx
      = s.kimSerial.tx ++ [cstr (KIM_sendUARTRaw_encode s RAWcmd len).command] := by
  have hc : (KIM_sendUARTRaw_encode s RAWcmd len).command
      = (List.range (len - 3)).map (fun i => RAWcmd.getD i 0) ++ [13, 10, 0]
          ++ s.command.drop len := by
    unfold KIM_sendUARTRaw_encode
    exact Raw_command s RAWcmd len hI.2.1 h3 h70
  have hlenM : ((List.range (len - 3)).map (fun i => RAWcmd.getD i 0)).length = len - 3 := by
    simp
  have htx : (KIM_sendUARTRaw s RAWcmd len).kimSerial.tx
      = s.kimSerial.tx ++ [cstr (KIM_sendUARTRaw_encode s RAWcmd len).command] := by
    unfold KIM_sendUARTRaw
    rw [exchange_tx]
    rfl
  rw [htx, hc]
  refine ⟨?_, ?_, ?_, ?_, ?_, ?_, ?_, rfl⟩
  · intro i hi
    rw [List.append_assoc, List.getElem?_append_left (by rw [hlenM]; exact hi)]
    simp [List.getElem?_map, List.getElem?_range, hi]
  · rw [List.append_assoc, List.getElem?_append_right (by rw [hlenM])]
    simp
  · rw [List.append_assoc, List.getElem?_append_right (by rw [hlenM]; omega)]
    have : len - 2 - (len - 3) = 1 := by omega
    simp [this]
  · rw [List.append_assoc, List.getElem?_append_right (by rw [hlenM]; omega)]
    have : len - 1 - (len - 3) = 2 := by omega
    simp [this]
  · apply List.drop_left'
    simp; omega
  · have := hI.2.1
    simp; omega
  · intro hl htail
    rw [map_getD_range_take RAWcmd (len - 3) (by omega), ← htail, List.take_append_drop]
    apply List.take_left'
    exact hl

theorem received_eq (l : List Nat) (h10 : 10 ∉ l) (hlen : l.length ≤ 20) :
    (l.takeWhile (fun b => b != 10)).take 20 = l := by
  have h : l.takeWhile (fun b => b != 10) = l := by
    rw [List.takeWhile_eq_self_iff]
    intro x hx
    simp only [bne_iff_ne, ne_eq]
    rintro rfl
    exact h10 hx
  rw [h]
  exact List.take_of_length_le hlen

theorem read_line (s : KIM) (l : List Nat) (rest : List (List Nat))
    (hrx : s.kimSerial.rx = l :: rest) (h10 : 10 ∉ l) (hlen : l.length ≤ 20) :
    (s.kimSerial.readBytesUntil 10 20).1 = l := by
  rw [readBytesUntil_cons _ l rest hrx, received_eq l h10 hlen]

/-- For an exchange that awaits no precursor, the loop of `KIM_sendUART` computes the
reference rule `classifyLines` on the lines of its reads. -/
theorem loop_classify (n : Nat) : ∀ (s : KIM), s.response.length = 20 →
    (∀ l ∈ s.kimSerial.rx, l.length ≤ 19 ∧ 10 ∉ l ∧ l ≠ [43]) →
    (KIM_sendUART_loop n false s).1 = classifyLines (s.kimSerial.rx.take n) := by
  induction n with
  | zero => intro s _ _; rfl
  | succ n ih =>
    intro s hlen hrx
    have hlen1 : (KIM_sendUART_read s).response.length = 20 := by
      rw [read_response_length]; exact hlen
    cases hs : s.kimSerial.rx with
    | nil =>
      have h0 : (KIM_sendUART_read s).response.getD 0 0 ≠ 43 := by
        rw [read_getD_zero s hlen, readBytesUntil_nil _ hs]; decide
      rw [loop_succ_skip n false s h0, ih _ hlen1 (by rw [read_rx, hs]; simp), read_rx, hs]
      simp [classifyLines]
    | cons l rest =>
      obtain ⟨hl19, hl10, hl43⟩ := hrx l (by rw [hs]; simp)
      have hr := read_line s l rest hs hl10 (by omega)
      have hrest : ∀ l' ∈ (KIM_sendUART_read s).kimSerial.rx,
          l'.length ≤ 19 ∧ 10 ∉ l' ∧ l' ≠ [43] := by
        intro l' hl'
        rw [read_rx, hs] at hl'
        exact hrx l' (by rw [hs]; exact List.mem_cons_of_mem _ hl')
      have hskip : l.head? ≠ some 43 →
          (KIM_sendUART_loop (n + 1) false s).1 = classifyLines ((l :: rest).take (n + 1)) := by
        intro hh
        have h0 : (KIM_sendUART_read s).response.getD 0 0 ≠ 43 := by
          rw [read_getD_zero s hlen, hr]
          cases l with
          | nil => decide
          | cons a t => simpa using hh
        rw [loop_succ_skip n false s h0, ih _ hlen1 hrest, read_rx, hs]
        simp only [List.tail_cons, List.take_succ_cons, classifyLines, hh, if_false]
      cases l with
      | nil => exact hskip (by simp)
      | cons a t =>
        by_cases ha : a = 43
        · subst ha
          have ht : t ≠ [] := fun h => hl43 (by rw [h])
          obtain ⟨g0, ge⟩ := isErrorPattern_plus s hlen t hr
          rw [if_neg ht] at ge
          simp only [List.take_succ_cons, classifyLines, List.head?_cons, if_true,
            List.getD_cons_succ]
          by_cases he : t.getD 0 0 ≠ 69 ∧ t.getD 1 0 = 82
          · have ge' : isErrorPattern (KIM_sendUART_read s).response = true := by
              rw [ge]; simp only [Bool.and_eq_true, bne_iff_ne, beq_iff_eq]; exact he
            rw [loop_succ_error n false s g0 ge', if_pos he]
          · have ge' : isErrorPattern (KIM_sendUART_read s).response = false := by
              rw [ge]
              by_cases hb : t.getD 0 0 = 69
              · rw [hb]; rfl
              · have h82 : ¬ t.getD 1 0 = 82 := fun h => he ⟨hb, h⟩
                rw [beq_eq_false_iff_ne.mpr h82]
                exact Bool.and_false _
            rw [loop_succ_ok n s g0 ge', if_neg he]
        · exact hskip (by simpa using ha)


/-- Claim C13. `KIM_sendUART`, line classification: for a command that is not delayed and
lines of at most 19 bytes, none of them the single byte `"+"`, the outcome is the
reference rule `classifyLines` applied to the first five reads. -/
theorem sendUART_classification (s : KIM) (hI : s.Inv) (hnd : isDelayed s.command = false)
    (hrx : ∀ l ∈ s.kimSerial.rx, l.length ≤ 19 ∧ 10 ∉ l ∧ l ≠ [43]) :
    (KIM_sendUART s).1 = classifyLines (s.kimSerial.rx.take 5) := by
  rw [sendUART_not_delayed s hnd,
    loop_classify 5 _ (by rw [start_response_length]; exact hI.1) (by rw [start_rx]; exact hrx),
    start_rx]

/-- The buffer after a read of a line of at most 19 bytes: the line, then a NUL. -/
theorem read_holds_line (s : KIM) (hlen : s.response.length = 20) (l : List Nat)
    (hr : (s.kimSerial.readBytesUntil 10 20).1 = l) (hl : l.length ≤ 19) :
    (KIM_sendUART_read s).response.take l.length = l ∧
    (KIM_sendUART_read s).response[l.length]? = some 0 := by
  rw [read_response s hlen, hr]
  obtain ⟨d, D, hD⟩ : ∃ d D, List.drop l.length s.response = d :: D := by
    cases h : List.drop l.length s.response with
    | nil =>
      have := congrArg List.length h
      simp at this
      omega
    | cons d D => exact ⟨d, D, rfl⟩
  have hset : (l ++ List.drop l.length s.response).set l.length 0 = l ++ 0 :: D := by
    rw [hD]; simp [List.set_append]
  rw [hset]
  exact ⟨List.take_left' rfl, by rw [List.getElem?_append_right (Nat.le_refl _)]; simp⟩

theorem drop_succ_eq_tail_drop {α : Type} (l : List α) (m : Nat) :
    l.drop (m + 1) = l.tail.drop m := by
  cases l <;> simp

theorem getD_zero_rx (s : KIM) (hlen : s.response.length = 20)
    (h43 : (KIM_sendUART_read s).response.getD 0 0 = 43) :
    ∃ l rest, s.kimSerial.rx = l :: rest := by
  cases hs : s.kimSerial.rx with
  | nil =>
    rw [read_getD_zero s hlen, readBytesUntil_nil _ hs] at h43
    simp at h43
  | cons l rest => exact ⟨l, rest, rfl⟩

/-- What a pass of the loop that finds `'+'` in `response[0]` has just read. -/
theorem read_decides (s : KIM) (hlen : s.response.length = 20)
    (hrx : ∀ l ∈ s.kimSerial.rx, l.length ≤ 19 ∧ 10 ∉ l)
    (h43 : (KIM_sendUART_read s).response.getD 0 0 = 43) :
    ∃ m line, (KIM_sendUART_read s).kimSerial.reads = s.kimSerial.reads + m + 1 ∧
      s.kimSerial.rx.drop m = line :: (KIM_sendUART_read s).kimSerial.rx ∧
      (KIM_sendUART_read s).response.take line.length = line ∧
      (KIM_sendUART_read s).response[line.length]? = some 0 ∧
      (KIM_sendUART_read s).response.getD 0 0 = 43 := by
  obtain ⟨l, rest, hs⟩ := getD_zero_rx s hlen h43
  obtain ⟨hl19, hl10⟩ := hrx l (by rw [hs]; simp)
  have hr := read_line s l rest hs hl10 (by omega)
  obtain ⟨a, b⟩ := read_holds_line s hlen l hr hl19
  exact ⟨0, l, by rw [read_reads], by rw [read_rx, hs]; rfl, a, b, h43⟩

/-- An exchange that is decided leaves in `response` the line of its last read. -/
theorem loop_holds (n : Nat) : ∀ (d : Bool) (s : KIM), s.response.length = 20 →
    (∀ l ∈ s.kimSerial.rx, l.length ≤ 19 ∧ 10 ∉ l) →
    (KIM_sendUART_loop n d s).1 ≠ KIM_TIMEOUT →
    ∃ m line, (KIM_sendUART_loop n d s).2.kimSerial.reads = s.kimSerial.reads + m + 1 ∧
      s.kimSerial.rx.drop m = line :: (KIM_sendUART_loop n d s).2.kimSerial.rx ∧
      (KIM_sendUART_loop n d s).2.response.take line.length = line ∧
      (KIM_sendUART_loop n d s).2.response[line.length]? = some 0 ∧
      (KIM_sendUART_loop n d s).2.response.getD 0 0 = 43 := by
  induction n with
  | zero => intro d s _ _ h; simp [loop_zero] at h
  | succ n ih =>
    intro d s hlen hrx
    have hlen1 : (KIM_sendUART_read s).response.length = 20 := by
      rw [read_response_length]; exact hlen
    have hrx1 : ∀ l ∈ (KIM_sendUART_read s).kimSerial.rx, l.length ≤ 19 ∧ 10 ∉ l := by
      intro l hl
      rw [read_rx] at hl
      exact hrx l (List.mem_of_mem_tail hl)
    have rec_case : ∀ d' : Bool,
        (KIM_sendUART_loop n d' (KIM_sendUART_read s)).1 ≠ KIM_TIMEOUT →
        ∃ m line, (KIM_sendUART_loop n d' (KIM_sendUART_read s)).2.kimSerial.reads
            = s.kimSerial.reads + m + 1 ∧
          s.kimSerial.rx.drop m
            = line :: (KIM_sendUART_loop n d' (KIM_sendUART_read s)).2.kimSerial.rx ∧
          (KIM_sendUART_loop n d' (KIM_sendUART_read s)).2.response.take line.length = line ∧
          (KIM_sendUART_loop n d' (KIM_sendUART_read s)).2.response[line.length]? = some 0 ∧
          (KIM_sendUART_loop n d' (KIM_sendUART_read s)).2.response.getD 0 0 = 43 := by
      intro d' h
      obtain ⟨m, line, a, b, c, e, f⟩ := ih d' _ hlen1 hrx1 h
      refine ⟨m + 1, line, ?_, ?_, c, e, f⟩
      · rw [a, read_reads]; omega
      · rw [drop_succ_eq_tail_drop, ← read_rx]; exact b
    rw [KIM_sendUART_loop]
    split
    · rename_i h43
      split
      · intro _; exact read_decides s hlen hrx h43
      · split
        · intro _; exact read_decides s hlen hrx h43
        · exact rec_case false
    · exact rec_case d

theorem holdsLastLine_of (s s' : KIM) (m : Nat) (line : List Nat)
    (h1 : s'.kimSerial.reads = s.kimSerial.reads + m + 1)
    (h2 : s.kimSerial.rx.drop m = line :: s'.kimSerial.rx)
    (h3 : s'.response.take line.length = line)
    (h4 : s'.response[line.length]? = some 0)
    (h5 : s'.response.getD 0 0 = 43) : holdsLastLine s s' := by
  have hline : lastLineRead s s' = line := by
    unfold lastLineRead
    have hm : s'.kimSerial.reads - s.kimSerial.reads - 1 = m := by omega
    rw [hm]
    have : (s.kimSerial.rx.drop m)[0]? = some line := by rw [h2]; simp
    rw [List.getElem?_drop] at this
    simp only [Nat.add_zero] at this
    rw [List.getD_eq_getElem?_getD, this]
    rfl
  refine ⟨by omega, h5, ?_, by rw [hline]; exact h3, by rw [hline]; exact h4⟩
  cases hr : s'.response with
  | nil => rw [hr] at h5; simp at h5
  | cons a t =>
    rw [hr] at h5
    have ha : a = 43 := by simpa using h5
    subst ha
    simp [cstr, List.takeWhile_cons]

theorem holdsLastLine_congr (s t s' : KIM) (h : s.kimSerial = t.kimSerial) :
    holdsLastLine s s' ↔ holdsLastLine t s' := by
  unfold holdsLastLine lastLineRead
  rw [h]

theorem exchange_reads_response (s : KIM) :
    (KIM_exchange s).kimSerial = (KIM_sendUART s).2.kimSerial ∧
    (KIM_exchange s).response = (KIM_sendUART s).2.response := by
  unfold KIM_exchange
  exact ⟨rfl, rfl⟩

/-- The text left by a decided exchange of any of the three senders. -/
theorem exchange_holds (s : KIM) (hlen : s.response.length = 20)
    (hrx : ∀ l ∈ s.kimSerial.rx, l.length ≤ 19 ∧ 10 ∉ l)
    (hdec : (KIM_exchange s).kimState = KIM_OK ∨ (KIM_exchange s).kimState = KIM_ERROR) :
    holdsLastLine s (KIM_exchange s) := by
  have hne : (KIM_sendUART s).1 ≠ KIM_TIMEOUT := by
    rw [exchange_kimState] at hdec
    rcases hdec with h | h <;> rw [h] <;> decide
  obtain ⟨hk, hresp⟩ := exchange_reads_response s
  have hstart : (KIM_sendUART_start s).response.length = 20 := by
    rw [start_response_length]; exact hlen
  unfold KIM_sendUART at hne hk hresp
  obtain ⟨m, line, a, b, c, e, f⟩ := loop_holds _ _ _ hstart (by rw [start_rx]; exact hrx) hne
  rw [start_reads] at a
  rw [start_rx] at b
  exact holdsLastLine_of s _ m line (by rw [hk]; exact a) (by rw [hk]; exact b)
    (by rw [hresp]; exact c) (by rw [hresp]; exact e) (by rw [hresp]; exact f)

/-- Claim C14. Returned response text: for an exchange made through
`KIM_sendATCommandGet`, `KIM_sendATCommandSet` or `KIM_sendUARTRaw` on a device whose
lines have at most 19 bytes, when the outcome is `KIM_OK` or `KIM_ERROR` the returned
`response` is not empty, starts with `'+'`, and holds the last line read followed by a
NUL at the received length. -/
theorem senders_response_text (s : KIM) (hI : s.Inv)
    (hrx : ∀ l ∈ s.kimSerial.rx, l.length ≤ 19 ∧ 10 ∉ l)
    (ATcmd : List Nat) (len : Nat) (ATcmdValue : List Nat) (valueLen : Nat)
    (RAWcmd : List Nat) (rawLen : Nat) :
    (((KIM_sendATCommandGet s ATcmd len).kimState = KIM_OK ∨
        (KIM_sendATCommandGet s ATcmd len).kimState = KIM_ERROR) →
      holdsLastLine s (KIM_sendATCommandGet s ATcmd len)) ∧
    (((KIM_sendATCommandSet s ATcmd len ATcmdValue valueLen).kimState = KIM_OK ∨
        (KIM_sendATCommandSet s ATcmd len ATcmdValue valueLen).kimState = KIM_ERROR) →
      holdsLastLine s (KIM_sendATCommandSet s ATcmd len ATcmdValue valueLen)) ∧
    (((KIM_sendUARTRaw s RAWcmd rawLen).kimState = KIM_OK ∨
        (KIM_sendUARTRaw s RAWcmd rawLen).kimState = KIM_ERROR) →
      holdsLastLine s (KIM_sendUARTRaw s RAWcmd rawLen)) := by
  refine ⟨?_, ?_, ?_⟩
  · intro h
    unfold KIM_sendATCommandGet at h ⊢
    exact (holdsLastLine_congr _ s _ (by unfold KIM_sendATCommandGet_encode; rfl)).mp
      (exchange_holds _ hI.1 hrx h)
  · intro h
    unfold KIM_sendATCommandSet at h ⊢
    exact (holdsLastLine_congr _ s _ (by unfold KIM_sendATCommandSet_encode; rfl)).mp
      (exchange_holds _ hI.1 hrx h)
  · intro h
    unfold KIM_sendUARTRaw at h ⊢
    exact (holdsLastLine_congr _ s _ (by unfold KIM_sendUARTRaw_encode; rfl)).mp
      (exchange_holds _ hI.1 hrx h)

theorem isDelayed_iff (command : List Nat) :
    isDelayed command = true ↔ command.getD 3 0 = 84 ∧ command.getD 4 0 = 88 := by
  simp only [isDelayed, Bool.and_eq_true, decide_eq_true_eq]

theorem Inv_AT_REQUEST_head (s : KIM) (hI : s.Inv) :
    ∃ t, s.AT_REQUEST = 61 :: 63 :: t := by
  cases hk : s.isKIM2
  · exact ⟨_, Inv_AT_REQUEST_B s hI hk⟩
  · exact ⟨_, Inv_AT_REQUEST_A s hI hk⟩

/-- On a device that never sends a line starting with `'+'`, the exchange makes ten reads
when the command is delayed and five when it is not. -/
theorem sendUART_silent_reads (s : KIM) (hI : s.Inv)
    (hrx : ∀ l ∈ s.kimSerial.rx, l.head? ≠ some 43) :
    (KIM_sendUART s).2.kimSerial.reads
      = s.kimSerial.reads + (if isDelayed s.command = true then 10 else 5) := by
  have hlen : (KIM_sendUART_start s).response.length = 20 := by
    rw [start_response_length]; exact hI.1
  cases hd : isDelayed s.command
  · rw [sendUART_not_delayed s hd]
    obtain ⟨_, b, _, _⟩ := loop_timeout 5 false _ hlen
      (fun l hl => hrx l (List.mem_of_mem_take hl))
    rw [b, start_reads]; simp
  · rw [sendUART_delayed s hd]
    obtain ⟨_, b, _, _⟩ := loop_timeout 10 true _ hlen
      (fun l hl => hrx l (List.mem_of_mem_take hl))
    rw [b, start_reads]; simp

/-- On a device whose first two reads return lines starting with `"+OK"`, the exchange
returns `KIM_OK` after two reads when the command is delayed (the first line is taken as
the precursor) and after one read when it is not. -/
theorem sendUART_two_plusOK (s : KIM) (hI : s.Inv) (t1 t2 : List Nat)
    (h1 : (s.kimSerial.readBytesUntil 10 20).1 = 43 :: 79 :: 75 :: t1)
    (h2 : ((s.kimSerial.readBytesUntil 10 20).2.readBytesUntil 10 20).1
      = 43 :: 79 :: 75 :: t2) :
    (KIM_sendUART s).1 = KIM_OK ∧
    (KIM_sendUART s).2.kimSerial.reads
      = s.kimSerial.reads + (if isDelayed s.command = true then 2 else 1) := by
  have hlen : (KIM_sendUART_start s).response.length = 20 := by
    rw [start_response_length]; exact hI.1
  have hr := (start_first_read s).trans h1
  cases hd : isDelayed s.command
  · rw [sendUART_not_delayed s hd, loop_plusOK 4 _ t1 hlen hr]
    exact ⟨rfl, by rw [read_reads, start_reads]; simp⟩
  · obtain ⟨g0, _, _⟩ := read_getD_three _ hlen 43 79 75 t1 hr
    have he := isErrorPattern_three _ hlen 43 79 75 t1 hr
    have hlen1 : (KIM_sendUART_read (KIM_sendUART_start s)).response.length = 20 := by
      rw [read_response_length]; exact hlen
    rw [sendUART_delayed s hd, loop_succ_precursor 9 _ g0 (by rw [he]; rfl),
      loop_plusOK 8 _ t2 hlen1 ((start_second_read s).trans h2)]
    exact ⟨rfl, by rw [read_reads, read_reads, start_reads]; simp⟩

/-- Claim C16. Delayed-mode detection: an exchange runs in delayed mode exactly when
`command[3]` and `command[4]` are `'T'` and `'X'`.  Ten usable reads: on a device that
sends no line starting with `'+'` the exchange makes ten reads exactly in that case and
five reads exactly otherwise.  One precursor line: on a device whose first two reads
return lines starting with `"+OK"` the exchange returns `KIM_OK` after two reads exactly
in that case and after one read exactly otherwise.  For a command built by
`KIM_sendATCommandGet` or `KIM_sendATCommandSet` from a verb of `len` bytes the mode is
delayed exactly when `len ≥ 2` and the verb starts with `'T'`, `'X'`. -/
theorem delayed_detection (s : KIM) (verb : List Nat) (len : Nat) (value : List Nat)
    (valueLen : Nat) (hI : s.Inv) (hlen : verb.length = len)
    (hvlen : value.length = valueLen) :
    ((∀ l ∈ s.kimSerial.rx, l.head? ≠ some 43) →
      ((KIM_sendUART s).2.kimSerial.reads = s.kimSerial.reads + 10 ↔
        s.command.getD 3 0 = 84 ∧ s.command.getD 4 0 = 88) ∧
      ((KIM_sendUART s).2.kimSerial.reads = s.kimSerial.reads + 5 ↔
        ¬ (s.command.getD 3 0 = 84 ∧ s.command.getD 4 0 = 88))) ∧
    (∀ t1 t2 : List Nat,
      (s.kimSerial.readBytesUntil 10 20).1 = 43 :: 79 :: 75 :: t1 →
      ((s.kimSerial.readBytesUntil 10 20).2.readBytesUntil 10 20).1 = 43 :: 79 :: 75 :: t2 →
      (((KIM_sendUART s).1 = KIM_OK ∧
          (KIM_sendUART s).2.kimSerial.reads = s.kimSerial.reads + 2) ↔
        s.command.getD 3 0 = 84 ∧ s.command.getD 4 0 = 88) ∧
      (((KIM_sendUART s).1 = KIM_OK ∧
          (KIM_sendUART s).2.kimSerial.reads = s.kimSerial.reads + 1) ↔
        ¬ (s.command.getD 3 0 = 84 ∧ s.command.getD 4 0 = 88))) ∧
    (len ≤ 62 →
      (isDelayed (KIM_sendATCommandGet_encode s verb len).command = true ↔
        2 ≤ len ∧ verb.getD 0 0 = 84 ∧ verb.getD 1 0 = 88)) ∧
    (len + valueLen ≤ 63 →
      (isDelayed (KIM_sendATCommandSet_encode s verb len value valueLen).command = true ↔
        2 ≤ len ∧ verb.getD 0 0 = 84 ∧ verb.getD 1 0 = 88)) := by
  obtain ⟨t, hREQ⟩ := Inv_AT_REQUEST_head s hI
  refine ⟨?_, ?_, ?_, ?_⟩
  · intro hrx
    have hr := sendUART_silent_reads s hI hrx
    rw [hr, ← isDelayed_iff]
    cases hd : isDelayed s.command
    · simp
    · simp
  · intro t1 t2 h1 h2
    obtain ⟨ho, hr⟩ := sendUART_two_plusOK s hI t1 t2 h1 h2
    rw [hr, ho, ← isDelayed_iff]
    cases hd : isDelayed s.command
    · simp
    · simp
  · intro hcap
    rw [isDelayed_iff]
    unfold KIM_sendATCommandGet_encode
    simp only [Get_command s verb len hI hlen hcap, hREQ]
    subst hlen
    match verb with
    | [] => simp
    | [a] => simp
    | a :: b :: v => simp
  · intro hcap
    rw [isDelayed_iff]
    unfold KIM_sendATCommandSet_encode
    simp only [Set_command s verb len value valueLen hI hlen hvlen hcap]
    subst hlen
    match verb with
    | [] => simp
    | [a] => simp
    | a :: b :: v => simp

theorem exchange_AT_REQUEST (s : KIM) : (KIM_exchange s).AT_REQUEST = s.AT_REQUEST := by
  unfold KIM_exchange
  exact sendUART_AT_REQUEST s

theorem powerON_frame (s : KIM) (b : Bool) :
    (KIM_powerON s b).isKIM2 = s.isKIM2 ∧ (KIM_powerON s b).AT_REQUEST = s.AT_REQUEST ∧
    (KIM_powerON s b).response = s.response ∧ (KIM_powerON s b).command = s.command ∧
    (KIM_powerON s b).AT = s.AT := by
  unfold KIM_powerON
  cases b <;> exact ⟨rfl, rfl, rfl, rfl, rfl⟩

theorem powerON_Inv (s : KIM) (hI : s.Inv) (b : Bool) : (KIM_powerON s b).Inv := by
  obtain ⟨h1, h2, h3, h4, h5⟩ := powerON_frame s b
  unfold KIM.Inv
  rw [h1, h2, h3, h4, h5]
  exact hI

theorem Set_Inv (s : KIM) (hI : s.Inv) (ATcmd : List Nat) (len : Nat) (ATcmdValue : List Nat)
    (valueLen : Nat) : (KIM_sendATCommandSet s ATcmd len ATcmdValue valueLen).Inv := by
  obtain ⟨h1, h2, h3, h4⟩ := hI
  exact exchange_Inv _
    ⟨h1, by simp [KIM_sendATCommandSet_encode, applyStores_length, h2], h3, h4⟩

theorem Raw_Inv (s : KIM) (hI : s.Inv) (RAWcmd : List Nat) (len : Nat) :
    (KIM_sendUARTRaw s RAWcmd len).Inv := by
  obtain ⟨h1, h2, h3, h4⟩ := hI
  exact exchange_Inv _
    ⟨h1, by simp [KIM_sendUARTRaw_encode, applyStores_length, h2], h3, h4⟩

theorem check_Inv (s : KIM) (hI : s.Inv) : (KIM_check s).2.Inv := by
  have hI1 := Get_Inv _ (toggle_Inv s hI) PING 4
  by_cases h : (KIM_sendATCommandGet (KIM_userWakeupPinToggle s) PING 4).response.getD 0 0 = 43
  · rw [check_no_retry s h]; exact hI1
  · rw [check_retry s h]; exact Get_Inv _ (flip_Inv _ hI1) PING 4

/-- Every public call keeps the shape of the object. -/
theorem call_Inv (s : KIM) (hI : s.Inv) (c : Call) : (s.call c).Inv := by
  cases c with
  | sendATCommandGet ATcmd len => exact Get_Inv s hI ATcmd len
  | sendATCommandSet ATcmd len v vl => exact Set_Inv s hI ATcmd len v vl
  | sendUARTRaw RAWcmd len => exact Raw_Inv s hI RAWcmd len
  | check => exact check_Inv s hI
  | getState => exact hI
  | isKIM2 => exact hI
  | powerON b => exact powerON_Inv s hI b
  | userWakeupPinToggle => exact hI

theorem run_Inv (calls : List Call) : ∀ (s : KIM), s.Inv → (s.run calls).Inv := by
  induction calls with
  | nil => intro s h; exact h
  | cons c calls ih => intro s h; rw [run_cons]; exact ih _ (call_Inv s h c)

/-- A call other than `KIM_check` leaves `isKIM2` and `AT_REQUEST` as they were. -/
theorem call_dialect (s : KIM) (c : Call) (hc : c ≠ Call.check) :
    (s.call c).isKIM2 = s.isKIM2 ∧ (s.call c).AT_REQUEST = s.AT_REQUEST := by
  cases c with
  | sendATCommandGet ATcmd len =>
    exact ⟨Get_isKIM2 s ATcmd len, by
      simp only [KIM.call, KIM_sendATCommandGet, exchange_AT_REQUEST, KIM_sendATCommandGet_encode]⟩
  | sendATCommandSet ATcmd len v vl =>
    exact ⟨by simp only [KIM.call, KIM_sendATCommandSet, exchange_isKIM2,
        KIM_sendATCommandSet_encode],
      by simp only [KIM.call, KIM_sendATCommandSet, exchange_AT_REQUEST,
        KIM_sendATCommandSet_encode]⟩
  | sendUARTRaw RAWcmd len =>
    exact ⟨by simp only [KIM.call, KIM_sendUARTRaw, exchange_isKIM2, KIM_sendUARTRaw_encode],
      by simp only [KIM.call, KIM_sendUARTRaw, exchange_AT_REQUEST, KIM_sendUARTRaw_encode]⟩
  | check => exact absurd rfl hc
  | getState => exact ⟨rfl, rfl⟩
  | isKIM2 => exact ⟨rfl, rfl⟩
  | powerON b => exact ⟨(powerON_frame s b).1, (powerON_frame s b).2.1⟩
  | userWakeupPinToggle => exact ⟨rfl, rfl⟩

/-- Claim C17. Dialect frame: through any sequence of in-capacity calls of
`KIM_sendATCommandGet`, `KIM_sendATCommandSet`, `KIM_sendUARTRaw`, `KIM_powerON`,
`KIM_getState`, `KIM_isKIM2` and the wake-up toggle (every public call but `KIM_check`),
`isKIM2` and `AT_REQUEST` stay exactly as they were. -/
theorem dialect_frame (calls : List Call) (s : KIM)
    (h : ∀ c ∈ calls, c.inCapacity = true ∧ c ≠ Call.check) :
    (s.run calls).isKIM2 = s.isKIM2 ∧ (s.run calls).AT_REQUEST = s.AT_REQUEST := by
  induction calls generalizing s with
  | nil => exact ⟨rfl, rfl⟩
  | cons c calls ih =>
    rw [run_cons]
    obtain ⟨a, b⟩ := ih (s.call c) (fun c' hc' => h c' (List.mem_cons_of_mem _ hc'))
    obtain ⟨a', b'⟩ := call_dialect s c (h c (List.mem_cons_self _ _)).2
    exact ⟨a.trans a', b.trans b'⟩

/-- Claim C18. Dialect and terminator agree: in every state reached from construction
(arrays of their declared sizes) through in-capacity public calls, `isKIM2` is true
exactly when `AT_REQUEST` is `"=?\r\n\0"` and false exactly when it is `"=?\r\0\0"`, and
the next query is printed with the terminator that `KIM_isKIM2` reports. -/
theorem dialect_terminator_invariant (device : SerialUART) (response0 command0 : List Nat)
    (calls : List Call) (hr : response0.length = 20) (hc : command0.length = 70)
    (_hcap : ∀ c ∈ calls, c.inCapacity = true) :
    (KIM_isKIM2 ((KIM.new device response0 command0).run calls) = true ↔
      ((KIM.new device response0 command0).run calls).AT_REQUEST = [61, 63, 13, 10, 0]) ∧
    (KIM_isKIM2 ((KIM.new device response0 command0).run calls) = false ↔
      ((KIM.new device response0 command0).run calls).AT_REQUEST = [61, 63, 13, 0, 0]) ∧
    (∀ verb : List Nat, verb.length ≤ 62 → (∀ b ∈ verb, b ≠ 0) →
      (KIM_sendATCommandGet ((KIM.new device response0 command0).run calls) verb
          verb.length).kimSerial.tx
        = ((KIM.new device response0 command0).run calls).kimSerial.tx ++
          [[65, 84, 43] ++ verb ++
            (if KIM_isKIM2 ((KIM.new device response0 command0).run calls) = true
              then [61, 63, 13, 10] else [61, 63, 13])]) := by
  have h0 : (KIM.new device response0 command0).Inv := ⟨hr, hc, rfl, rfl⟩
  have hI := run_Inv calls _ h0
  refine ⟨?_, ?_, ?_⟩
  · unfold KIM_isKIM2
    cases hk : ((KIM.new device response0 command0).run calls).isKIM2
    · rw [Inv_AT_REQUEST_B _ hI hk]; simp
    · rw [Inv_AT_REQUEST_A _ hI hk]; simp
  · unfold KIM_isKIM2
    cases hk : ((KIM.new device response0 command0).run calls).isKIM2
    · rw [Inv_AT_REQUEST_B _ hI hk]; simp
    · rw [Inv_AT_REQUEST_A _ hI hk]; simp
  · intro verb hv hnz
    unfold KIM_sendATCommandGet KIM_isKIM2
    rw [exchange_tx, Get_cstr _ verb verb.length hI rfl hv hnz]
    rfl

theorem hexStores_succ (input : List Nat) (n : Nat) (h : n + 1 < 256) :
    KIM_uint2hexString_stores input (n + 1)
      = KIM_uint2hexString_stores input n ++
        [(((n * 2 : Nat) : Int), hexDigit (input.getD n 0 % 256 / 16)),
         (((n * 2 : Nat) : Int) + 1, hexDigit (input.getD n 0 % 256 % 16)),
         (((n * 2 : Nat) : Int) + 2, 0)] := by
  unfold KIM_uint2hexString_stores
  rw [Nat.mod_eq_of_lt h, Nat.mod_eq_of_lt (by omega : n < 256), List.range_succ,
    List.flatMap_append]
  simp

theorem hexString_length (l : List Nat) : (hexString l).length = 2 * l.length := by
  induction l with
  | nil => rfl
  | cons a l ih =>
    simp only [hexString, List.flatMap_cons, List.length_append, List.length_cons,
      List.length_nil] at ih ⊢
    omega

theorem hexString_take_succ (input : List Nat) (n : Nat) (h : n < input.length) :
    hexString (input.take (n + 1))
      = hexString (input.take n)
        ++ [hexDigit (input.getD n 0 / 16), hexDigit (input.getD n 0 % 16)] := by
  have e : input.getD n 0 = input[n] := by
    rw [List.getD_eq_getElem?_getD, List.getElem?_eq_getElem h]; rfl
  rw [e, List.take_succ, List.getElem?_eq_getElem h]
  unfold hexString
  rw [List.flatMap_append]
  rfl

/-- The three stores of one `sprintf` on a buffer that has room for them. -/
theorem sprintf_step (pre post : List Nat) (x y z a b c : Nat) (n : Nat)
    (hpre : pre.length = n * 2) :
    applyStores (pre ++ x :: y :: z :: post)
      [(((n * 2 : Nat) : Int), a), (((n * 2 : Nat) : Int) + 1, b), (((n * 2 : Nat) : Int) + 2, c)]
      = pre ++ a :: b :: c :: post := by
  rw [tail_stores]
  have := applyStores_copyStores_at ((n * 2 : Nat) : Int) 3 (fun i => [a, b, c].getD i 0)
    pre [x, y, z] post (by rw [hpre]) rfl
  have e3 : (List.range 3).map (fun i => [a, b, c].getD i 0) = [a, b, c] := rfl
  rw [e3] at this
  simpa using this

/-- The output array after the first `n` passes of the loop of `KIM_uint2hexString`. -/
theorem hexStores_apply (input output : List Nat) (hb : ∀ b ∈ input, b < 256) (n : Nat) :
    n < 256 → 1 ≤ n → n ≤ input.length → 2 * n + 1 ≤ output.length →
    applyStores output (KIM_uint2hexString_stores input n)
      = hexString (input.take n) ++ 0 :: output.drop (2 * n + 1) := by
  induction n with
  | zero => intro _ h; omega
  | succ n ih =>
    intro h256 _ hin hout
    have hbyte : input.getD n 0 % 256 = input.getD n 0 := by
      apply Nat.mod_eq_of_lt
      rw [List.getD_eq_getElem?_getD, List.getElem?_eq_getElem (by omega : n < input.length)]
      exact hb _ (List.getElem_mem _)
    rw [hexStores_succ input n h256, applyStores_append, hbyte,
      hexString_take_succ input n (by omega)]
    rcases Nat.eq_zero_or_pos n with hn | hn
    · subst hn
      have e0 : KIM_uint2hexString_stores input 0 = [] := rfl
      rw [e0, applyStores_nil]
      match output, hout with
      | x :: y :: z :: post, _ =>
        have := sprintf_step [] post x y z (hexDigit (input.getD 0 0 / 16))
          (hexDigit (input.getD 0 0 % 16)) 0 0 rfl
        simpa [hexString] using this
    · rw [ih (by omega) hn (by omega) (by omega)]
      obtain ⟨y, z, hd⟩ : ∃ y z, output.drop (2 * n + 1)
          = y :: z :: output.drop (2 * (n + 1) + 1) := by
        have h1 : (output.drop (2 * n + 1)).length = output.length - (2 * n + 1) := by simp
        match hD : output.drop (2 * n + 1), h1 with
        | [], h1 => simp at h1; omega
        | [y], h1 => simp at h1; omega
        | y :: z :: rest, _ =>
          refine ⟨y, z, ?_⟩
          have : output.drop (2 * (n + 1) + 1) = (output.drop (2 * n + 1)).drop 2 := by
            rw [List.drop_drop]; congr 1
          rw [this, hD]; rfl
      rw [hd]
      have := sprintf_step (hexString (input.take n)) (output.drop (2 * (n + 1) + 1)) 0 y z
        (hexDigit (input.getD n 0 / 16)) (hexDigit (input.getD n 0 % 16)) 0 n
        (by rw [hexString_length, List.length_take]; omega)
      rw [this]
      simp

theorem hexDigit_facts (d : Nat) (h : d < 16) :
    isUpperHexDigit (hexDigit d) = true ∧ hexValue (hexDigit d) = d ∧ hexDigit d ≠ 0 := by
  have : d = 0 ∨ d = 1 ∨ d = 2 ∨ d = 3 ∨ d = 4 ∨ d = 5 ∨ d = 6 ∨ d = 7 ∨ d = 8 ∨ d = 9 ∨
      d = 10 ∨ d = 11 ∨ d = 12 ∨ d = 13 ∨ d = 14 ∨ d = 15 := by omega
  rcases this with h | h | h | h | h | h | h | h | h | h | h | h | h | h | h | h <;>
    subst h <;> decide

theorem hexString_cons (b : Nat) (l : List Nat) :
    hexString (b :: l) = hexDigit (b / 16) :: hexDigit (b % 16) :: hexString l := rfl

theorem hexString_mem (l : List Nat) (hb : ∀ b ∈ l, b < 256) (c : Nat)
    (hc : c ∈ hexString l) : isUpperHexDigit c = true ∧ c ≠ 0 := by
  induction l with
  | nil => simp [hexString] at hc
  | cons b l ih =>
    have hb256 : b < 256 := hb b (by simp)
    rw [hexString_cons] at hc
    rcases List.mem_cons.mp hc with rfl | hc
    · have := hexDigit_facts (b / 16) (by omega); exact ⟨this.1, this.2.2⟩
    · rcases List.mem_cons.mp hc with rfl | hc
      · have := hexDigit_facts (b % 16) (by omega); exact ⟨this.1, this.2.2⟩
      · exact ih (fun x hx => hb x (by simp [hx])) hc

theorem parse_hexString (l : List Nat) (hb : ∀ b ∈ l, b < 256) :
    parseHexString (hexString l) = l := by
  induction l with
  | nil => rfl
  | cons b l ih =>
    have hb256 : b < 256 := hb b (by simp)
    rw [hexString_cons, parseHexString, ih (fun x hx => hb x (by simp [hx])),
      (hexDigit_facts (b / 16) (by omega)).2.1, (hexDigit_facts (b % 16) (by omega)).2.1]
    congr 1
    omega

theorem hexString_getElem (l : List Nat) : ∀ i, i < l.length →
    (hexString l)[2 * i]? = some (hexDigit (l.getD i 0 / 16)) ∧
    (hexString l)[2 * i + 1]? = some (hexDigit (l.getD i 0 % 16)) := by
  induction l with
  | nil => intro i h; simp at h
  | cons b l ih =>
    intro i h
    rw [hexString_cons]
    cases i with
    | zero => exact ⟨by simp, by simp⟩
    | succ i =>
      have := ih i (by simpa using h)
      have e : 2 * (i + 1) = 2 * i + 1 + 1 := by omega
      rw [e]
      simpa using this

/-- Claim C15. `KIM_uint2hexString`: for `len ≥ 1` bytes and an output array with room for
`2 * len + 1` characters, the output holds the `2 * len` uppercase hexadecimal digits
of the input, high nibble first, then a NUL at index `2 * len`, and the rest of the
array is unchanged; reading the text back two digits at a time gives the input.  For
`len = 0` nothing is written. -/
theorem uint2hexString_roundtrip (input output : List Nat) (len : Nat)
    (hlen : input.length = len) (h1 : 1 ≤ len) (h256 : len < 256)
    (hb : ∀ b ∈ input, b < 256) (hout : 2 * len + 1 ≤ output.length) :
    (KIM_uint2hexString input len output).take (2 * len) = hexString input ∧
    (KIM_uint2hexString input len output)[2 * len]? = some 0 ∧
    (KIM_uint2hexString input len output).drop (2 * len + 1) = output.drop (2 * len + 1) ∧
    (∀ i, i < len →
      (KIM_uint2hexString input len output)[2 * i]? = some (hexDigit (input.getD i 0 / 16)) ∧
      (KIM_uint2hexString input len output)[2 * i + 1]?
        = some (hexDigit (input.getD i 0 % 16))) ∧
    (∀ c ∈ hexString input, isUpperHexDigit c = true) ∧
    parseHexString (cstr (KIM_uint2hexString input len output)) = input ∧
    KIM_uint2hexString_stores input 0 = [] ∧
    KIM_uint2hexString input 0 output = output := by
  have hres : KIM_uint2hexString input len output
      = hexString input ++ 0 :: output.drop (2 * len + 1) := by
    unfold KIM_uint2hexString
    rw [hexStores_apply input output hb len h256 h1 (by omega) hout,
      List.take_of_length_le (by omega)]
  have hl : (hexString input).length = 2 * len := by rw [hexString_length, hlen]
  rw [hres]
  refine ⟨List.take_left' hl, ?_, ?_, ?_, fun c hc => (hexString_mem input hb c hc).1, ?_,
    rfl, rfl⟩
  · rw [List.getElem?_append_right (by omega), hl]; simp
  · have e : hexString input ++ 0 :: output.drop (2 * len + 1)
        = (hexString input ++ [0]) ++ output.drop (2 * len + 1) := by simp
    rw [e]
    exact List.drop_left' (by simp [hl])
  · intro i hi
    obtain ⟨a, b⟩ := hexString_getElem input i (by omega)
    rw [List.getElem?_append_left (by omega), List.getElem?_append_left (by omega)]
    exact ⟨a, b⟩
  · rw [cstr_append_zero _ _ (fun c hc => (hexString_mem input hb c hc).2)]
    exact parse_hexString input hb

/-- Claim C19, evaluated on two runs of the query `"AT+ID=?"` whose only read returns
the one-byte line `"+"`: on a fresh object (`response` zero-filled) the outcome is
`KIM_OK`; on an object whose previous exchange left `"+ERROR\r"` in `response` the
outcome is `KIM_ERROR`, because `response[2]` still holds the `'R'` of the earlier line. -/
theorem sendUART_stale_response :
    (KIM_sendATCommandGet (sampleKIM [[43]]) [73, 68] 2).kimState = KIM_OK ∧
    (KIM_sendATCommandGet (sampleKIM [[43, 69, 82, 82, 79, 82, 13], [43]]) [73, 68]
      2).kimSerial.rx = (sampleKIM [[43]]).kimSerial.rx ∧
    (KIM_sendATCommandGet (sampleKIM [[43, 69, 82, 82, 79, 82, 13], [43]]) [73, 68]
      2).response = [43, 69, 82, 82, 79, 82, 13, 0, 0, 0, 0, 0, 0, 0, 0, 0, 0, 0, 0, 0] ∧
    (KIM_sendATCommandGet
      (KIM_sendATCommandGet (sampleKIM [[43, 69, 82, 82, 79, 82, 13], [43]]) [73, 68] 2)
      [73, 68] 2).kimState = KIM_ERROR ∧
    (KIM_sendATCommandGet
      (KIM_sendATCommandGet (sampleKIM [[43, 69, 82, 82, 79, 82, 13], [43]]) [73, 68] 2)
      [73, 68] 2).kimSerial.tx.getLast?
      = (KIM_sendATCommandGet (sampleKIM [[43]]) [73, 68] 2).kimSerial.tx.getLast? ∧
    (KIM_sendUART (sampleKIMWith [[43]] sampleID)).1 = KIM_OK ∧
    (KIM_sendUART { sampleKIMWith [[43]] sampleID with
      response := [43, 69, 82, 82, 79, 82, 13, 0, 0, 0, 0, 0, 0, 0, 0, 0, 0, 0, 0, 0] }).1
      = KIM_ERROR := by
  decide

/-- Claim C11 as stated fails for a query verb of 63 bytes: the last store of
`KIM_sendATCommandGet` has index 70, one past the 70-byte array `command`, and the
command is sent all the same. -/
theorem encoders_capacity_counterexample :
    ((70 : Int), 0) ∈ KIM_sendATCommandGet_stores (sampleKIM []) (List.replicate 63 65) 63 ∧
    (sampleKIM []).command.length = 70 ∧
    (KIM_sendATCommandGet (sampleKIM []) (List.replicate 63 65) 63).kimSerial.tx.length = 1 ∧
    (KIM_sendATCommandGet (sampleKIM []) (List.replicate 63 65) 63).kimState = KIM_TIMEOUT := by
  decide

/-- Claim C11 (amended), at the verb `"ID"` and the value `"1"` on a fresh object. -/
theorem encoders_within_capacity_witness :
    (2 % 256 ≤ 62 ∧ 2 % 256 + 1 % 256 ≤ 63) ∧
    (∀ w ∈ KIM_sendATCommandGet_stores (sampleKIM []) [73, 68] 2, 0 ≤ w.1 ∧ w.1 < 70) ∧
    (∀ w ∈ KIM_sendATCommandSet_stores (sampleKIM []) [73, 68] 2 [49] 1,
      0 ≤ w.1 ∧ w.1 < 70) :=
  ⟨by decide,
    (encoders_within_capacity (sampleKIM []) [73, 68] 2 [49] 1).1 (by decide),
    (encoders_within_capacity (sampleKIM []) [73, 68] 2 [49] 1).2.1 (by decide)⟩

/-- Claim C12, at the raw buffer `"AT+ID=?\r\n\0"` of ten bytes. -/
theorem sendUARTRaw_command_witness :
    (sampleKIM []).Inv ∧ 3 ≤ 10 ∧ 10 ≤ 70 ∧
    (KIM_sendUARTRaw_encode (sampleKIM []) [65, 84, 43, 73, 68, 61, 63, 13, 10, 0]
      10).command[7]? = some 13 ∧
    (KIM_sendUARTRaw_encode (sampleKIM []) [65, 84, 43, 73, 68, 61, 63, 13, 10, 0]
      10).command.take 10 = [65, 84, 43, 73, 68, 61, 63, 13, 10, 0] :=
  ⟨by decide, by decide, by decide,
    (sendUARTRaw_command (sampleKIM []) [65, 84, 43, 73, 68, 61, 63, 13, 10, 0] 10
      (by decide) (by decide) (by decide)).2.1,
    (sendUARTRaw_command (sampleKIM []) [65, 84, 43, 73, 68, 61, 63, 13, 10, 0] 10
      (by decide) (by decide) (by decide)).2.2.2.2.2.2.1 rfl rfl⟩

/-- Claim C13, at the lines `"OK"`, `"+TR\r"`, `"+OK"` for the query `"AT+ID=?"`. -/
theorem sendUART_classification_witness :
    (sampleKIMWith [[79, 75], [43, 84, 82, 13], [43, 79, 75]] sampleID).Inv ∧
    isDelayed (sampleKIMWith [[79, 75], [43, 84, 82, 13], [43, 79, 75]] sampleID).command
      = false ∧
    (∀ l ∈ (sampleKIMWith [[79, 75], [43, 84, 82, 13], [43, 79, 75]] sampleID).kimSerial.rx,
      l.length ≤ 19 ∧ 10 ∉ l ∧ l ≠ [43]) ∧
    (KIM_sendUART (sampleKIMWith [[79, 75], [43, 84, 82, 13], [43, 79, 75]] sampleID)).1
      = classifyLines
        ((sampleKIMWith [[79, 75], [43, 84, 82, 13], [43, 79, 75]] sampleID).kimSerial.rx.take
          5) :=
  ⟨by decide, by decide, by decide,
    sendUART_classification (sampleKIMWith [[79, 75], [43, 84, 82, 13], [43, 79, 75]] sampleID)
      (by decide) (by decide) (by decide)⟩

/-- Claim C14, at the reply `"+OK\r"` to the query built from the verb `"ID"`. -/
theorem senders_response_text_witness :
    (sampleKIM [[43, 79, 75, 13]]).Inv ∧
    (∀ l ∈ (sampleKIM [[43, 79, 75, 13]]).kimSerial.rx, l.length ≤ 19 ∧ 10 ∉ l) ∧
    (KIM_sendATCommandGet (sampleKIM [[43, 79, 75, 13]]) [73, 68] 2).kimState = KIM_OK ∧
    holdsLastLine (sampleKIM [[43, 79, 75, 13]])
      (KIM_sendATCommandGet (sampleKIM [[43, 79, 75, 13]]) [73, 68] 2) :=
  ⟨by decide, by decide, by decide,
    (senders_response_text (sampleKIM [[43, 79, 75, 13]]) (by decide) (by decide)
      [73, 68] 2 [] 0 [] 0).1 (Or.inl (by decide))⟩

/-- Claim C15, at the three bytes `AB 01 FF` and an output array of ten characters. -/
theorem uint2hexString_roundtrip_witness :
    [171, 1, 255].length = 3 ∧ 1 ≤ 3 ∧ 3 < 256 ∧ (∀ b ∈ [171, 1, 255], b < 256) ∧
    2 * 3 + 1 ≤ (List.replicate 10 1).length ∧
    (KIM_uint2hexString [171, 1, 255] 3 (List.replicate 10 1)).take (2 * 3)
      = hexString [171, 1, 255] ∧
    (KIM_uint2hexString [171, 1, 255] 3 (List.replicate 10 1))[2 * 3]? = some 0 ∧
    parseHexString (cstr (KIM_uint2hexString [171, 1, 255] 3 (List.replicate 10 1)))
      = [171, 1, 255] :=
  ⟨by decide, by decide, by decide, by decide, by decide,
    (uint2hexString_roundtrip [171, 1, 255] (List.replicate 10 1) 3 rfl (by decide)
      (by decide) (by decide) (by decide)).1,
    (uint2hexString_roundtrip [171, 1, 255] (List.replicate 10 1) 3 rfl (by decide)
      (by decide) (by decide) (by decide)).2.1,
    (uint2hexString_roundtrip [171, 1, 255] (List.replicate 10 1) 3 rfl (by decide)
      (by decide) (by decide) (by decide)).2.2.2.2.2.1⟩

/-- Claim C16, at the command `"AT+TX=00"`: ten reads on a silent device, two reads on a
device that answers `"+OK\r"` twice; and at the verb `"TX"`, whose query form and set
form are delayed. -/
theorem delayed_detection_witness :
    (sampleKIMWith [] sampleTX).Inv ∧
    (sampleKIMWith [[43, 79, 75, 13], [43, 79, 75, 13]] sampleTX).Inv ∧
    (sampleKIM []).Inv ∧ [84, 88].length = 2 ∧ [48, 48].length = 2 ∧
    (KIM_sendUART (sampleKIMWith [] sampleTX)).2.kimSerial.reads
      = (sampleKIMWith [] sampleTX).kimSerial.reads + 10 ∧
    ((KIM_sendUART (sampleKIMWith [[43, 79, 75, 13], [43, 79, 75, 13]] sampleTX)).1 = KIM_OK ∧
      (KIM_sendUART
        (sampleKIMWith [[43, 79, 75, 13], [43, 79, 75, 13]] sampleTX)).2.kimSerial.reads
        = (sampleKIMWith [[43, 79, 75, 13], [43, 79, 75, 13]] sampleTX).kimSerial.reads + 2) ∧
    isDelayed (KIM_sendATCommandGet_encode (sampleKIM []) [84, 88] 2).command = true ∧
    isDelayed (KIM_sendATCommandSet_encode (sampleKIM []) [84, 88] 2 [48, 48] 2).command
      = true :=
  ⟨by decide, by decide, by decide, by decide, by decide,
    (((delayed_detection (sampleKIMWith [] sampleTX) [84, 88] 2 [48, 48] 2 (by decide) rfl
      rfl).1 (by decide)).1).mpr (by decide),
    (((delayed_detection (sampleKIMWith [[43, 79, 75, 13], [43, 79, 75, 13]] sampleTX)
      [84, 88] 2 [48, 48] 2 (by decide) rfl rfl).2.1 [13] [13] (by decide) (by decide)).1).mpr
      (by decide),
    ((delayed_detection (sampleKIM []) [84, 88] 2 [48, 48] 2 (by decide) rfl rfl).2.2.1
      (by decide)).mpr (by decide),
    ((delayed_detection (sampleKIM []) [84, 88] 2 [48, 48] 2 (by decide) rfl rfl).2.2.2
      (by decide)).mpr (by decide)⟩

/-- Claim C17, on the object left by `KIM_check` on a silent device (`isKIM2` false),
through a query, a power-on, a state read and a set command. -/
theorem dialect_frame_witness :
    (∀ c ∈ [Call.sendATCommandGet [73, 68] 2, Call.powerON true, Call.getState,
        Call.sendATCommandSet [80, 87, 82] 3 [53, 48, 48] 3],
      c.inCapacity = true ∧ c ≠ Call.check) ∧
    (((KIM_check (sampleKIM [])).2.run
        [Call.sendATCommandGet [73, 68] 2, Call.powerON true, Call.getState,
          Call.sendATCommandSet [80, 87, 82] 3 [53, 48, 48] 3]).isKIM2
      = (KIM_check (sampleKIM [])).2.isKIM2 ∧
    ((KIM_check (sampleKIM [])).2.run
        [Call.sendATCommandGet [73, 68] 2, Call.powerON true, Call.getState,
          Call.sendATCommandSet [80, 87, 82] 3 [53, 48, 48] 3]).AT_REQUEST
      = (KIM_check (sampleKIM [])).2.AT_REQUEST) :=
  ⟨by decide,
    dialect_frame
      [Call.sendATCommandGet [73, 68] 2, Call.powerON true, Call.getState,
        Call.sendATCommandSet [80, 87, 82] 3 [53, 48, 48] 3]
      (KIM_check (sampleKIM [])).2 (by decide)⟩

/-- Claim C18, after `KIM_check` and a query on a silent device. -/
theorem dialect_terminator_invariant_witness :
    (List.replicate 20 0).length = 20 ∧ (List.replicate 70 0).length = 70 ∧
    (∀ c ∈ [Call.check, Call.sendATCommandGet [73, 68] 2], c.inCapacity = true) ∧
    (KIM_isKIM2 ((KIM.new (sampleUART []) (List.replicate 20 0) (List.replicate 70 0)).run
        [Call.check, Call.sendATCommandGet [73, 68] 2]) = false ↔
      ((KIM.new (sampleUART []) (List.replicate 20 0) (List.replicate 70 0)).run
        [Call.check, Call.sendATCommandGet [73, 68] 2]).AT_REQUEST = [61, 63, 13, 0, 0]) :=
  ⟨by decide, by decide, by decide,
    (dialect_terminator_invariant (sampleUART []) (List.replicate 20 0) (List.replicate 70 0)
      [Call.check, Call.sendATCommandGet [73, 68] 2] (by decide) (by decide)
      (by decide)).2.1⟩

/-- Claim C20, at `len = 63` and `valueLen = 1`: the query encoder leaves the array, the
set encoder does not reach index 70 only when the lengths sum to at most 63. -/
theorem encoders_in_bounds_iff_witness :
    63 < 256 ∧ 1 < 256 ∧
    ((∀ w ∈ KIM_sendATCommandGet_stores (sampleKIM []) (List.replicate 63 65) 63,
        0 ≤ w.1 ∧ w.1 ≤ 69) ↔ 63 ≤ 62) ∧
    (((63 : Nat) : Int) + 7, (sampleKIM []).AT_REQUEST.getD 4 0)
      ∈ KIM_sendATCommandGet_stores (sampleKIM []) (List.replicate 63 65) 63 :=
  ⟨by decide, by decide,
    (encoders_in_bounds_iff (sampleKIM []) (List.replicate 63 65) [49] [] 63 1
      (by decide) (by decide)).1,
    (encoders_in_bounds_iff (sampleKIM []) (List.replicate 63 65) [49] [] 63 1
      (by decide) (by decide)).2.1.1⟩

end KIMLib
